import Mathlib

/-! Dorking Tool: query builder and bookmark store

A shallow embedding of

* `buildDorkString` of `dork-tool-frontend/src/App.jsx` (the query builder and
  its history side effect), and
* the folder / bookmark handlers of `dork-tool-backend/index.js`.

JavaScript strings are modelled as lists of characters (`Str`).  All characters
that `trim` and `split(",")` look at lie in the Basic Multilingual Plane, so the
code-unit / code-point distinction plays no role for them.  Field values and
request body members are text: a member is either absent (`none`) or a string.
-/

namespace DorkTool

/-! ## JavaScript string primitives -/

/-- A JavaScript string, as its sequence of characters. -/
abbrev Str := List Char

/-- The code points removed by `String.prototype.trim`: ECMAScript `WhiteSpace`
(TAB, VT, FF, SP, NBSP, ZWNBSP and the category Zs) and `LineTerminator`
(LF, CR, LS, PS). -/
def isJsSpace (c : Char) : Bool :=
  let n := c.toNat
  n == 9 || n == 10 || n == 11 || n == 12 || n == 13 || n == 32 || n == 160
    || n == 5760 || (8192 ≤ n && n ≤ 8202) || n == 8232 || n == 8233
    || n == 8239 || n == 8287 || n == 12288 || n == 65279

/-- Leading white space removed. -/
def trimStart (s : Str) : Str := s.dropWhile isJsSpace

/-- Trailing white space removed. -/
def trimEnd (s : Str) : Str := (s.reverse.dropWhile isJsSpace).reverse

/-- `s.trim()`. -/
def trim (s : Str) : Str := trimEnd (trimStart s)

/-- `s.split(",")`: the maximal comma-free pieces of `s`, in order; the empty
string splits into one empty piece. -/
def splitComma : Str → List Str
  | [] => [[]]
  | c :: cs =>
    if c = ',' then [] :: splitComma cs
    else
      match splitComma cs with
      | [] => [[c]]
      | p :: ps => (c :: p) :: ps

/-- `parts.join(sep)`. -/
def join (sep : Str) (parts : List Str) : Str := List.intercalate sep parts

/-- JavaScript truthiness of a member that is absent or a string: only a
present, non-empty string is truthy. -/
def truthy : Option Str → Bool
  | some (_ :: _) => true
  | _ => false

/-! ## The query builder (`App.jsx`) -/

/-- The `fields` object: a value for each key that is present. -/
abbrev Fields := String → Option Str

/-- The value of `initialFields`: every key present and empty. -/
def initialFields : Fields := fun _ => some []

/-- The `orderedKeys` array of `buildDorkString`. -/
def orderedKeys : List String :=
  ["site", "inurl", "allinurl", "link", "related", "ip", "loc", "intitle",
   "allintitle", "intext", "allintext", "inanchor", "allinanchor", "inbody",
   "inposttitle", "inpostauthor", "filetype", "ext", "mime", "cache", "info",
   "inpublisher", "source", "before", "after", "daterange", "range", "define",
   "weather", "stocks", "map", "book", "phonebook", "group", "q"]

/-- `String(v).trim()` for a member `v` that is a string. -/
def valueOf (v : Option Str) : Str := trim (v.getD [])

/-- First statement of `buildDorkString`: push the quoted phrase. -/
def pushExactPhrase (fields : Fields) (parts : List Str) : List Str :=
  if truthy (fields "exactPhrase") then
    parts ++ [['"'] ++ valueOf (fields "exactPhrase") ++ ['"']]
  else parts

/-- Second statement: push the excluded term. -/
def pushExclude (fields : Fields) (parts : List Str) : List Str :=
  if truthy (fields "exclude") then
    parts ++ [['-'] ++ valueOf (fields "exclude")]
  else parts

/-- The `orParts` array: split on commas, trim every piece, keep the non-empty
ones. -/
def orParts (v : Str) : List Str :=
  ((splitComma v).map trim).filter (fun s => !s.isEmpty)

/-- Third statement: push the parenthesised alternatives. -/
def pushOr (fields : Fields) (parts : List Str) : List Str :=
  if truthy (fields "OR") then
    let ps := orParts ((fields "OR").getD [])
    if ps.length ≠ 0 then parts ++ [['('] ++ join " OR ".toList ps ++ [')']]
    else parts
  else parts

/-- The body of the `for (const k of orderedKeys)` loop. -/
def pushKey (fields : Fields) (parts : List Str) (k : String) : List Str :=
  let v := fields k
  if !truthy v || valueOf v == [] then parts
  else if k = "q" then parts ++ [valueOf v]
  else if k = "range" then parts ++ [valueOf v]
  else parts ++ [k.toList ++ [':'] ++ valueOf v]

/-- The `parts` array when the loop has finished. -/
def buildParts (fields : Fields) : List Str :=
  orderedKeys.foldl (pushKey fields)
    (pushOr fields (pushExclude fields (pushExactPhrase fields [])))

/-- The constant `q` of `buildDorkString`: `parts.join(" ").trim()`. -/
def buildQuery (fields : Fields) : Str := trim (join [' '] (buildParts fields))

/-- A history entry. -/
structure HistoryEntry where
  text : Str
  time : Str
deriving DecidableEq, Repr

/-- The component state that `buildDorkString` reads and writes. -/
structure AppState where
  fields : Fields
  dork : Str
  history : List HistoryEntry

/-- The function `buildDorkString(saveToHistory)`: the returned string and the
state after the queued `setDork` / `setHistory` updates; `time` is what
`new Date().toLocaleString()` yields. -/
def buildDorkString (st : AppState) (saveToHistory : Bool) (time : Str) :
    Str × AppState :=
  let q := buildQuery st.fields
  let st1 : AppState := { st with dork := q }
  if truthy (some q) && saveToHistory then
    (q, { st1 with history := st1.history ++ [{ text := q, time := time }] })
  else (q, st1)

/-- A field set given by finitely many key/value pairs; other keys are absent. -/
def fieldsOf (kvs : List (String × String)) : Fields :=
  fun k => (kvs.lookup k).map String.toList

/-- A field set given by overriding `initialFields` at finitely many keys. -/
def fieldsWith (kvs : List (String × String)) : Fields :=
  fun k => match kvs.lookup k with
    | some v => some v.toList
    | none => initialFields k

/-! ## The build rule as the specification words it -/

/-- A string with no white space at either end (the empty string included). -/
def NoEdgeSpace (s : Str) : Prop :=
  (∀ c, s.head? = some c → isJsSpace c = false) ∧
  (∀ c, s.getLast? = some c → isJsSpace c = false)

/-- A token: non-empty, no white space at either end. -/
def Tidy (s : Str) : Prop := s ≠ [] ∧ NoEdgeSpace s

/-- The first character of a string, if any, is not white space. -/
def headOk : Str → Bool
  | [] => true
  | c :: _ => !isJsSpace c

/-- A member is empty: absent, or the empty string. -/
def isEmptyValue (v : Option Str) : Prop := v.getD [] = []

instance (v : Option Str) : Decidable (isEmptyValue v) := by
  unfold isEmptyValue; infer_instance

/-- A member is empty or whitespace-only. -/
def isBlank (v : Option Str) : Bool := (v.getD []).all isJsSpace

/-- Rule 1 of the specification: the quoted, trimmed phrase when `exactPhrase`
is non-empty. -/
def specPhraseToken (fields : Fields) : Option Str :=
  if isEmptyValue (fields "exactPhrase") then none
  else some ('"' :: trim ((fields "exactPhrase").getD []) ++ ['"'])

/-- Rule 2: the trimmed value behind a minus sign when `exclude` is non-empty. -/
def specExcludeToken (fields : Fields) : Option Str :=
  if isEmptyValue (fields "exclude") then none
  else some ('-' :: trim ((fields "exclude").getD []))

/-- The comma-separated parts of a value, trimmed, the empty ones dropped. -/
def specOrParts (v : Str) : List Str :=
  ((splitComma v).map trim).filter (fun p => p ≠ [])

/-- Rule 3: the parts of `OR`, joined by ` OR ` in parentheses, when any part
remains. -/
def specOrToken (fields : Fields) : Option Str :=
  if specOrParts ((fields "OR").getD []) = [] then none
  else some ('(' :: join " OR ".toList (specOrParts ((fields "OR").getD [])) ++ [')'])

/-- Rule 4: nothing for a value that is empty or whitespace-only; the trimmed
value alone for `q` and `range`; `key:value` for every other key. -/
def specKeyToken (fields : Fields) (k : String) : Option Str :=
  if isBlank (fields k) then none
  else if k = "q" ∨ k = "range" then some (trim ((fields k).getD []))
  else some (k.toList ++ ':' :: trim ((fields k).getD []))

/-- The unprefixed free-text token of `q`. -/
def specQToken (fields : Fields) : Option Str :=
  if isBlank (fields "q") then none else some (trim ((fields "q").getD []))

/-- Every key of `initialFields`: the three specially formatted keys and the
ordered ones. -/
def fieldKeys : List String := "exactPhrase" :: "exclude" :: "OR" :: orderedKeys

/-! ## The bookmark store (`index.js`) -/

/-- A stored bookmark `{id, url, title, note, addedAt}`. -/
structure Bookmark where
  id : Str
  url : Str
  title : Str
  note : Str
  addedAt : Str
deriving DecidableEq, Repr

/-- A stored folder `{id, name, bookmarks}`. -/
structure Folder where
  id : Str
  name : Str
  bookmarks : List Bookmark
deriving DecidableEq, Repr

/-- The `folders` array of the persisted document `{ folders: [...] }`. -/
abbrev Store := List Folder

/-- What a handler leaves behind: the HTTP status, the JSON payload of a
successful reply, and the content of the data file afterwards.  Reading and
writing the file are taken to succeed (the `catch` branches answering 500 are
not part of the model). -/
structure Response (α : Type) where
  status : Nat
  body : Option α
  store : Store
deriving DecidableEq, Repr

/-- `Date.now().toString()` at clock value `now` (milliseconds). -/
def dateNowString (now : Nat) : Str := Nat.toDigits 10 now

/-- `(v || '').toString()` for a member that is absent or a string. -/
def orEmpty (v : Option Str) : Str := if truthy v then v.getD [] else []

namespace Backend

/-- Handler of `POST /folders` with body member `name`. -/
def createFolder (data : Store) (name : Option Str) (now : Nat) : Response Folder :=
  let name := trim (orEmpty name)
  if !truthy (some name) then { status := 400, body := none, store := data }
  else
    let id := dateNowString now
    let folder : Folder := { id := id, name := name, bookmarks := [] }
    { status := 201, body := some folder, store := folder :: data }

/-- Handler of `DELETE /folders/:id`. -/
def deleteFolder (data : Store) (id : Str) : Response Unit :=
  let before := data.length
  let folders := data.filter (fun f => f.id != id)
  if folders.length = before then { status := 404, body := none, store := data }
  else { status := 200, body := some (), store := folders }

/-- The effect of `folder.bookmarks.unshift(bookmark)` on the array that holds
`folder = data.folders.find(f => f.id === folderId)`: the first folder with
that id receives the bookmark in front. -/
def unshiftInto (folderId : Str) (bookmark : Bookmark) : List Folder → List Folder
  | [] => []
  | f :: fs =>
    if f.id = folderId then { f with bookmarks := bookmark :: f.bookmarks } :: fs
    else f :: unshiftInto folderId bookmark fs

/-- Handler of `POST /bookmarks` with body members `folderId`, `url`, `title`,
`note`; `now` is the value of `Date.now()` and `iso` that of
`new Date().toISOString()`. -/
def addBookmark (data : Store) (folderId url title note : Option Str)
    (now : Nat) (iso : Str) : Response Bookmark :=
  if !truthy folderId || !truthy url then { status := 400, body := none, store := data }
  else
    match data.find? (fun f => f.id == folderId.getD []) with
    | none => { status := 404, body := none, store := data }
    | some _ =>
      let bookmark : Bookmark :=
        { id := dateNowString now
          url := url.getD []
          title := orEmpty title
          note := orEmpty note
          addedAt := iso }
      { status := 201, body := some bookmark
        store := unshiftInto (folderId.getD []) bookmark data }

/-- The two conditional assignments `b.title = ...`, `b.note = ...`. -/
def assignFields (title note : Option Str) (b : Bookmark) : Bookmark :=
  let b1 := match title with
    | some t => { b with title := t }
    | none => b
  match note with
  | some n => { b1 with note := n }
  | none => b1

/-- The effect on `f.bookmarks` of assigning to `f.bookmarks.find(b => b.id === id)`:
the array afterwards and the bookmark found, if any. -/
def updateIn (id : Str) (title note : Option Str) :
    List Bookmark → Option (List Bookmark × Bookmark)
  | [] => none
  | b :: bs =>
    if b.id = id then some (assignFields title note b :: bs, assignFields title note b)
    else
      match updateIn id title note bs with
      | some (bs1, found) => some (b :: bs1, found)
      | none => none

/-- The loop `for (const f of data.folders)` with its `break`: the folders
afterwards and `found`. -/
def updateLoop (id : Str) (title note : Option Str) :
    List Folder → Option (List Folder × Bookmark)
  | [] => none
  | f :: fs =>
    match updateIn id title note f.bookmarks with
    | some (bs1, found) => some ({ f with bookmarks := bs1 } :: fs, found)
    | none =>
      match updateLoop id title note fs with
      | some (fs1, found) => some (f :: fs1, found)
      | none => none

/-- Handler of `PUT /bookmarks/:id` with body members `title`, `note`. -/
def updateBookmark (data : Store) (id : Str) (title note : Option Str) :
    Response Bookmark :=
  match updateLoop id title note data with
  | none => { status := 404, body := none, store := data }
  | some (folders, found) => { status := 200, body := some found, store := folders }

/-- The callback of `f.bookmarks.filter(...)` run over one array, threading the
variable `removed`. -/
def filterOut (id : Str) : List Bookmark → Bool → List Bookmark × Bool
  | [], removed => ([], removed)
  | b :: bs, removed =>
    if b.id = id then filterOut id bs true
    else
      let r := filterOut id bs removed
      (b :: r.1, r.2)

/-- The `data.folders.map(...)` of the delete handler, threading `removed`. -/
def removeFrom (id : Str) : List Folder → Bool → List Folder × Bool
  | [], removed => ([], removed)
  | f :: fs, removed =>
    let r := filterOut id f.bookmarks removed
    let rest := removeFrom id fs r.2
    ({ f with bookmarks := r.1 } :: rest.1, rest.2)

/-- Handler of `DELETE /bookmarks/:id`. -/
def deleteBookmark (data : Store) (id : Str) : Response Unit :=
  let r := removeFrom id data false
  if !r.2 then { status := 404, body := none, store := data }
  else { status := 200, body := some (), store := r.1 }

end Backend

/-! ## The history panel (`App.jsx`) -/

/-- The call `p.filter((_, idx) => idx !== i)`, the array read from position
`idx` on. -/
def filterIndexFrom (i : Int) : List HistoryEntry → Nat → List HistoryEntry
  | [], _ => []
  | e :: es, idx =>
    if (idx : Int) ≠ i then e :: filterIndexFrom i es (idx + 1)
    else filterIndexFrom i es (idx + 1)

/-- The function `deleteHistoryItem(i)`: the state after the queued `setHistory`
update. -/
def deleteHistoryItem (st : AppState) (i : Int) : AppState :=
  { st with history := filterIndexFrom i st.history 0 }

/-- The rows of the history panel, `history.slice().reverse().map((h, idx) => ...)`:
the entry each row shows and the `realIndex` its Delete button passes to
`deleteHistoryItem`. -/
def historyRows (history : List HistoryEntry) : List (HistoryEntry × Int) :=
  history.reverse.enum.map (fun r => (r.2, (history.length : Int) - 1 - (r.1 : Int)))

/-! ## The query builder with its run-time errors made explicit -/

/-- A run-time error of the builder: a method called on `undefined`. -/
inductive JsError where
  | typeError
deriving DecidableEq, Repr

/-- The method call `v.trim()`: a `TypeError` when `v` is `undefined`. -/
def callTrim : Option Str → Except JsError Str
  | some s => .ok (trim s)
  | none => .error .typeError

/-- The method call `v.split(",")`: a `TypeError` when `v` is `undefined`. -/
def callSplit : Option Str → Except JsError (List Str)
  | some s => .ok (splitComma s)
  | none => .error .typeError

/-- The conversion `String(v)`, which never throws: `"undefined"` for an absent
member. -/
def toJsString : Option Str → Str
  | some s => s
  | none => "undefined".toList

/-- The statement `if (fields.exactPhrase) parts.push(...)`, the call of `trim`
fallible. -/
def pushExactPhraseChecked (fields : Fields) (parts : List Str) :
    Except JsError (List Str) :=
  if truthy (fields "exactPhrase") then
    match callTrim (fields "exactPhrase") with
    | .ok t => .ok (parts ++ [['"'] ++ t ++ ['"']])
    | .error e => .error e
  else .ok parts

/-- The statement `if (fields.exclude) parts.push(...)`, the call of `trim`
fallible. -/
def pushExcludeChecked (fields : Fields) (parts : List Str) : Except JsError (List Str) :=
  if truthy (fields "exclude") then
    match callTrim (fields "exclude") with
    | .ok t => .ok (parts ++ [['-'] ++ t])
    | .error e => .error e
  else .ok parts

/-- The statement `if (fields.OR) ...`, the call of `split` fallible. -/
def pushOrChecked (fields : Fields) (parts : List Str) : Except JsError (List Str) :=
  if truthy (fields "OR") then
    match callSplit (fields "OR") with
    | .ok pieces =>
      let ps := (pieces.map trim).filter (fun s => !s.isEmpty)
      if ps.length ≠ 0 then .ok (parts ++ [['('] ++ join " OR ".toList ps ++ [')']])
      else .ok parts
    | .error e => .error e
  else .ok parts

/-- The loop body with `String(v)` spelled out; nothing in it can throw. -/
def pushKeyChecked (fields : Fields) (parts : List Str) (k : String) : List Str :=
  let v := fields k
  if !truthy v || trim (toJsString v) == [] then parts
  else if k = "q" then parts ++ [trim (toJsString v)]
  else if k = "range" then parts ++ [trim (toJsString v)]
  else parts ++ [k.toList ++ [':'] ++ trim (toJsString v)]

/-- The whole of `buildDorkString` with its errors: the returned string and the
state afterwards, or the error thrown. -/
def buildDorkStringChecked (st : AppState) (saveToHistory : Bool) (time : Str) :
    Except JsError (Str × AppState) :=
  match pushExactPhraseChecked st.fields [] with
  | .error e => .error e
  | .ok p1 =>
    match pushExcludeChecked st.fields p1 with
    | .error e => .error e
    | .ok p2 =>
      match pushOrChecked st.fields p2 with
      | .error e => .error e
      | .ok p3 =>
        let parts := orderedKeys.foldl (pushKeyChecked st.fields) p3
        let q := trim (join [' '] parts)
        let st1 : AppState := { st with dork := q }
        if truthy (some q) && saveToHistory then
          .ok (q, { st1 with history := st1.history ++ [{ text := q, time := time }] })
        else .ok (q, st1)

/-! ## Sequences of requests to the bookmark store -/

/-- A request to the bookmark store, together with the values its handler would
read from the clock. -/
inductive Request where
  | createFolder (name : Option Str) (now : Nat)
  | deleteFolder (id : Str)
  | addBookmark (folderId url title note : Option Str) (now : Nat) (iso : Str)
  | updateBookmark (id : Str) (title note : Option Str)
  | deleteBookmark (id : Str)
deriving DecidableEq, Repr

namespace Backend

/-- The content of the data file after a request has been handled. -/
def handle (data : Store) : Request → Store
  | .createFolder name now => (createFolder data name now).store
  | .deleteFolder id => (deleteFolder data id).store
  | .addBookmark folderId url title note now iso =>
    (addBookmark data folderId url title note now iso).store
  | .updateBookmark id title note => (updateBookmark data id title note).store
  | .deleteBookmark id => (deleteBookmark data id).store

/-- The value of `Date.now()` read while a request is handled: only a creation
that gets past its validation reads the clock for an id. -/
def clockRead (data : Store) : Request → Option Nat
  | .createFolder name now =>
    if (createFolder data name now).status = 201 then some now else none
  | .addBookmark folderId url title note now iso =>
    if (addBookmark data folderId url title note now iso).status = 201 then some now else none
  | _ => none

/-- The content of the data file after a sequence of requests. -/
def run (data : Store) : List Request → Store
  | [] => data
  | r :: rs => run (handle data r) rs

/-- The clock values read for ids along a sequence of requests, in order. -/
def clockReads (data : Store) : List Request → List Nat
  | [] => []
  | r :: rs => (clockRead data r).toList ++ clockReads (handle data r) rs

end Backend

/-- The ids of the stored folders, in order. -/
def folderIds (data : Store) : List Str := data.map Folder.id

/-- The ids of all stored bookmarks, folder by folder. -/
def bookmarkIds (data : Store) : List Str :=
  data.flatMap (fun f => f.bookmarks.map Bookmark.id)

/-- The decimal value of a string of digits. -/
def digitsValue (start : Nat) (s : Str) : Nat :=
  s.foldl (fun acc c => acc * 10 + (c.toNat - 48)) start

/-- Folder ids are pairwise distinct, bookmark ids are pairwise distinct, and
every id is the rendering of a clock value in `used`. -/
def IdsFrom (used : List Nat) (data : Store) : Prop :=
  (folderIds data).Nodup ∧ (bookmarkIds data).Nodup
    ∧ (∀ i ∈ folderIds data, ∃ t ∈ used, i = dateNowString t)
    ∧ (∀ i ∈ bookmarkIds data, ∃ t ∈ used, i = dateNowString t)

/-- A sample sequence of requests: two folders and two bookmarks are created at
four different clock values, then a bookmark is deleted, one is retitled and a
folder is deleted. -/
def sampleRequests : List Request :=
  [ .createFolder (some "Work".toList) 1000,
    .addBookmark (some "1000".toList) (some "http://a.example".toList) none none 1001
      "2026-01-01T00:00:00.001Z".toList,
    .addBookmark (some "1000".toList) (some "http://b.example".toList) (some "B".toList) none
      1002 "2026-01-01T00:00:00.002Z".toList,
    .createFolder (some "Home".toList) 1003,
    .deleteBookmark "1001".toList,
    .updateBookmark "1002".toList (some "T".toList) none,
    .deleteFolder "1003".toList ]

/-! ## Facts about the string primitives -/

theorem dropWhile_of_head (p : Char → Bool) (s : Str)
    (h : ∀ c, s.head? = some c → p c = false) : s.dropWhile p = s := by
  cases s with
  | nil => rfl
  | cons a t => simp [List.dropWhile, h a rfl]

theorem head_dropWhile (p : Char → Bool) (s : Str) :
    ∀ c, (s.dropWhile p).head? = some c → p c = false := by
  induction s with
  | nil => intro c h; simp at h
  | cons a t ih =>
    intro c h
    by_cases ha : p a = true
    · rw [List.dropWhile_cons_of_pos ha] at h
      exact ih c h
    · rw [List.dropWhile_cons_of_neg ha] at h
      simp at h
      subst h
      simpa using ha

theorem dropWhile_eq_nil (p : Char → Bool) (s : Str) :
    s.dropWhile p = [] ↔ ∀ c ∈ s, p c = true := by
  induction s with
  | nil => simp
  | cons a t ih =>
    by_cases ha : p a = true
    · rw [List.dropWhile_cons_of_pos ha, ih]; simp [ha]
    · rw [List.dropWhile_cons_of_neg ha]; simp [ha]

theorem trimStart_of_head (s : Str) (h : ∀ c, s.head? = some c → isJsSpace c = false) :
    trimStart s = s := dropWhile_of_head _ s h

theorem trimEnd_of_last (s : Str) (h : ∀ c, s.getLast? = some c → isJsSpace c = false) :
    trimEnd s = s := by
  unfold trimEnd
  rw [dropWhile_of_head _ _ (by simpa using h)]
  simp

theorem trim_of_noEdgeSpace (s : Str) (h : NoEdgeSpace s) : trim s = s := by
  unfold trim
  rw [trimStart_of_head s h.1, trimEnd_of_last s h.2]

theorem trimEnd_eq_nil (s : Str) : trimEnd s = [] ↔ ∀ c ∈ s, isJsSpace c = true := by
  unfold trimEnd
  rw [List.reverse_eq_nil_iff, dropWhile_eq_nil]
  simp

theorem trim_eq_nil (s : Str) : trim s = [] ↔ ∀ c ∈ s, isJsSpace c = true := by
  unfold trim
  constructor
  · intro h
    rw [trimEnd_eq_nil] at h
    have h0 : trimStart s = [] := by
      cases hs : trimStart s with
      | nil => rfl
      | cons a t =>
        have h1 := head_dropWhile isJsSpace s a (by
          show (trimStart s).head? = some a
          rw [hs]; rfl)
        have h2 := h a (by rw [hs]; simp)
        rw [h1] at h2
        cases h2
    exact (dropWhile_eq_nil _ _).1 h0
  · intro h
    have h0 : trimStart s = [] := (dropWhile_eq_nil _ _).2 h
    rw [h0]; rfl

theorem last_trimEnd (s : Str) : ∀ c, (trimEnd s).getLast? = some c → isJsSpace c = false := by
  intro c h
  unfold trimEnd at h
  rw [List.getLast?_reverse] at h
  exact head_dropWhile _ _ c h

theorem trimEnd_append (s : Str) : ∃ w, s = trimEnd s ++ w := by
  refine ⟨(s.reverse.takeWhile isJsSpace).reverse, ?_⟩
  unfold trimEnd
  rw [← List.reverse_append, List.takeWhile_append_dropWhile, List.reverse_reverse]

theorem head_trimEnd (s : Str) (h : ∀ c, s.head? = some c → isJsSpace c = false) :
    ∀ c, (trimEnd s).head? = some c → isJsSpace c = false := by
  intro c hc
  obtain ⟨w, hw⟩ := trimEnd_append s
  apply h
  rw [hw]
  cases ht : trimEnd s with
  | nil => rw [ht] at hc; simp at hc
  | cons a t => rw [ht] at hc; simpa using hc

theorem noEdgeSpace_trim (s : Str) : NoEdgeSpace (trim s) :=
  ⟨head_trimEnd _ (head_dropWhile _ s), last_trimEnd _⟩

theorem trim_trim (s : Str) : trim (trim s) = trim s :=
  trim_of_noEdgeSpace _ (noEdgeSpace_trim s)

/-! ## Joining tokens -/

theorem join_nil (sep : Str) : join sep [] = [] := rfl

theorem join_singleton (sep x : Str) : join sep [x] = x := by
  simp [join, List.intercalate, List.intersperse]

theorem join_cons_cons (sep x y : Str) (r : List Str) :
    join sep (x :: y :: r) = x ++ sep ++ join sep (y :: r) := by
  simp [join, List.intercalate, List.intersperse]

theorem join_ne_nil (sep x : Str) (r : List Str) (hx : x ≠ []) : join sep (x :: r) ≠ [] := by
  cases r with
  | nil => rw [join_singleton]; exact hx
  | cons y r => rw [join_cons_cons]; simp [hx]

theorem tidy_join (tokens : List Str) (h : ∀ t ∈ tokens, Tidy t) :
    NoEdgeSpace (join [' '] tokens) := by
  induction tokens with
  | nil => exact ⟨by simp [join_nil], by simp [join_nil]⟩
  | cons x r ih =>
    have hx := h x (by simp)
    cases r with
    | nil => rw [join_singleton]; exact hx.2
    | cons y r =>
      have hr := ih (fun t ht => h t (by simp at ht ⊢; right; exact ht))
      have hy := h y (by simp)
      have hne := join_ne_nil [' '] y r hy.1
      rw [join_cons_cons]
      constructor
      · intro c hc
        apply hx.2.1
        cases x with
        | nil => exact absurd rfl hx.1
        | cons a t => simpa using hc
      · intro c hc
        apply hr.2
        rw [List.getLast?_append_of_ne_nil _ hne] at hc
        exact hc

/-! ## The tokens pushed by `buildDorkString` -/

theorem truthy_iff (v : Option Str) : truthy v = true ↔ ¬ isEmptyValue v := by
  unfold isEmptyValue
  cases v with
  | none => simp [truthy]
  | some s => cases s <;> simp [truthy]

theorem key_skipped_iff (v : Option Str) :
    (!truthy v || valueOf v == []) = isBlank v := by
  have h : (valueOf v == []) = isBlank v := by
    unfold valueOf isBlank
    rw [Bool.eq_iff_iff, beq_iff_eq, trim_eq_nil, List.all_eq_true]
  cases v with
  | none => simp [truthy, isBlank]
  | some s =>
    cases s with
    | nil => simp [truthy, isBlank]
    | cons a t => rw [h]; simp [truthy]

theorem pushExactPhrase_eq (fields : Fields) (parts : List Str) :
    pushExactPhrase fields parts = parts ++ (specPhraseToken fields).toList := by
  unfold pushExactPhrase specPhraseToken
  by_cases h : truthy (fields "exactPhrase") = true
  · have h1 := (truthy_iff _).1 h
    simp [h, h1, valueOf]
  · have h1 : isEmptyValue (fields "exactPhrase") := by
      by_contra hc; exact h ((truthy_iff _).2 hc)
    simp [h, h1]

theorem pushExclude_eq (fields : Fields) (parts : List Str) :
    pushExclude fields parts = parts ++ (specExcludeToken fields).toList := by
  unfold pushExclude specExcludeToken
  by_cases h : truthy (fields "exclude") = true
  · have h1 := (truthy_iff _).1 h
    simp [h, h1, valueOf]
  · have h1 : isEmptyValue (fields "exclude") := by
      by_contra hc; exact h ((truthy_iff _).2 hc)
    simp [h, h1]

theorem orParts_eq (v : Str) : orParts v = specOrParts v := by
  unfold orParts specOrParts
  congr 1
  funext s
  cases s <;> simp

theorem specOrParts_nil : specOrParts [] = [] := by decide

theorem pushOr_eq (fields : Fields) (parts : List Str) :
    pushOr fields parts = parts ++ (specOrToken fields).toList := by
  unfold pushOr specOrToken
  simp only [orParts_eq]
  by_cases h : truthy (fields "OR") = true
  · by_cases hp : specOrParts ((fields "OR").getD []) = []
    · simp [h, hp]
    · simp [h, hp]
  · have h1 : isEmptyValue (fields "OR") := by
      by_contra hc; exact h ((truthy_iff _).2 hc)
    unfold isEmptyValue at h1
    simp [h, h1, specOrParts_nil]

theorem pushKey_eq (fields : Fields) (parts : List Str) (k : String) :
    pushKey fields parts k = parts ++ (specKeyToken fields k).toList := by
  unfold pushKey specKeyToken
  simp only [key_skipped_iff]
  by_cases hb : isBlank (fields k) = true
  · simp [hb]
  · by_cases hq : k = "q"
    · subst hq; simp [hb, valueOf]
    · by_cases hr : k = "range"
      · subst hr; simp [hb, valueOf]
      · simp [hb, hq, hr, valueOf]

theorem foldl_pushKey (fields : Fields) (keys : List String) (parts : List Str) :
    keys.foldl (pushKey fields) parts = parts ++ keys.filterMap (specKeyToken fields) := by
  induction keys generalizing parts with
  | nil => simp
  | cons k ks ih =>
    rw [List.foldl_cons, ih, pushKey_eq, List.filterMap_cons]
    cases specKeyToken fields k <;> simp

theorem buildParts_eq (fields : Fields) :
    buildParts fields =
      (specPhraseToken fields).toList ++ (specExcludeToken fields).toList
        ++ (specOrToken fields).toList ++ orderedKeys.filterMap (specKeyToken fields) := by
  unfold buildParts
  rw [foldl_pushKey, pushOr_eq, pushExclude_eq, pushExactPhrase_eq]
  simp

/-! ## Every pushed token is tidy, so the final `trim` changes nothing -/

theorem tidy_append (a b : Str) (ha : a ≠ []) (hh : headOk a = true) (hb : b ≠ [])
    (hl : ∀ c, b.getLast? = some c → isJsSpace c = false) : Tidy (a ++ b) := by
  refine ⟨by simp [ha], ?_, ?_⟩
  · intro c hc
    cases a with
    | nil => exact absurd rfl ha
    | cons x t =>
      simp at hc
      subst hc
      simpa [headOk] using hh
  · intro c hc
    rw [List.getLast?_append_of_ne_nil _ hb] at hc
    exact hl c hc

theorem tidy_phrase (t : Str) : Tidy ('"' :: t ++ ['"']) := by
  have h := tidy_append ['"'] (t ++ ['"']) (by simp) (by decide) (by simp)
    (by intro c hc; simp at hc; subst hc; decide)
  simpa using h

theorem tidy_or (t : Str) : Tidy ('(' :: t ++ [')']) := by
  have h := tidy_append ['('] (t ++ [')']) (by simp) (by decide) (by simp)
    (by intro c hc; simp at hc; subst hc; decide)
  simpa using h

theorem tidy_exclude (v : Str) : Tidy ('-' :: trim v) := by
  by_cases h : trim v = []
  · rw [h]
    refine ⟨by simp, ?_, ?_⟩ <;> intro c hc <;> simp at hc <;> subst hc <;> decide
  · have h1 := tidy_append ['-'] (trim v) (by simp) (by decide) h (noEdgeSpace_trim v).2
    simpa using h1

theorem tidy_trim (v : Str) (h : trim v ≠ []) : Tidy (trim v) := ⟨h, noEdgeSpace_trim v⟩

theorem orderedKeys_headOk : ∀ k ∈ orderedKeys, headOk (k.toList ++ [':']) = true := by
  decide

theorem trim_ne_nil_of_not_blank (v : Option Str) (h : ¬ isBlank v = true) :
    trim (v.getD []) ≠ [] := by
  intro hc
  apply h
  unfold isBlank
  rw [List.all_eq_true]
  exact (trim_eq_nil _).1 hc

theorem tidy_keyToken (fields : Fields) (k : String) (hk : k ∈ orderedKeys) (t : Str)
    (ht : specKeyToken fields k = some t) : Tidy t := by
  unfold specKeyToken at ht
  by_cases hb : isBlank (fields k) = true
  · simp [hb] at ht
  · have hne := trim_ne_nil_of_not_blank _ hb
    by_cases hq : k = "q" ∨ k = "range"
    · simp [hb, hq] at ht
      subst ht
      exact tidy_trim _ hne
    · simp [hb, hq] at ht
      subst ht
      have h1 := tidy_append (k.toList ++ [':']) (trim ((fields k).getD [])) (by simp)
        (orderedKeys_headOk k hk) hne (noEdgeSpace_trim _).2
      simpa using h1

theorem tidy_buildParts (fields : Fields) : ∀ t ∈ buildParts fields, Tidy t := by
  intro t ht
  rw [buildParts_eq] at ht
  simp only [List.mem_append, List.mem_filterMap] at ht
  rcases ht with ((h | h) | h) | ⟨k, hk, h⟩
  · unfold specPhraseToken at h
    split at h
    · simp at h
    · simp at h; subst h; exact tidy_phrase _
  · unfold specExcludeToken at h
    split at h
    · simp at h
    · simp at h; subst h; exact tidy_exclude _
  · unfold specOrToken at h
    split at h
    · simp at h
    · simp at h; subst h; exact tidy_or _
  · exact tidy_keyToken fields k hk t h

theorem buildQuery_eq_join (fields : Fields) :
    buildQuery fields = join [' '] (buildParts fields) :=
  trim_of_noEdgeSpace _ (tidy_join _ (tidy_buildParts fields))

/-! ## `split(",")` -/

theorem splitComma_ne_nil (v : Str) : splitComma v ≠ [] := by
  cases v with
  | nil => simp [splitComma]
  | cons c cs =>
    unfold splitComma
    split
    · simp
    · split <;> simp

theorem join_cons_head (sep p : Str) (c : Char) (ps : List Str) :
    join sep ((c :: p) :: ps) = c :: join sep (p :: ps) := by
  cases ps with
  | nil => simp [join_singleton]
  | cons y r => simp [join_cons_cons]

theorem join_splitComma (v : Str) : join [','] (splitComma v) = v := by
  induction v with
  | nil => simp [splitComma, join_singleton]
  | cons c cs ih =>
    unfold splitComma
    split
    · rename_i hc
      cases hs : splitComma cs with
      | nil => exact absurd hs (splitComma_ne_nil cs)
      | cons y r =>
        rw [join_cons_cons, ← hs, ih, hc]
        rfl
    · cases hs : splitComma cs with
      | nil => exact absurd hs (splitComma_ne_nil cs)
      | cons y r =>
        simp only
        rw [join_cons_head, ← hs, ih]

theorem splitComma_no_comma (v : Str) : ∀ p ∈ splitComma v, ',' ∉ p := by
  induction v with
  | nil => simp [splitComma]
  | cons c cs ih =>
    unfold splitComma
    split
    · intro p hp
      simp at hp
      rcases hp with h | h
      · subst h; simp
      · exact ih p h
    · rename_i hc
      cases hs : splitComma cs with
      | nil => exact absurd hs (splitComma_ne_nil cs)
      | cons y r =>
        rw [hs] at ih
        intro p hp
        simp at hp
        rcases hp with h | h
        · subst h
          have hy := ih y (by simp)
          simp
          exact ⟨fun h => hc h.symm, hy⟩
        · exact ih p (by simp [h])

/-! ## The returned string -/

theorem buildDorkString_fst (st : AppState) (saveToHistory : Bool) (time : Str) :
    (buildDorkString st saveToHistory time).1 = buildQuery st.fields := by
  unfold buildDorkString
  simp only
  split <;> rfl

theorem specKeyToken_q (fields : Fields) : specKeyToken fields "q" = specQToken fields := by
  unfold specKeyToken specQToken
  simp

theorem isBlank_of_isEmptyValue (v : Option Str) (h : isEmptyValue v) : isBlank v = true := by
  unfold isEmptyValue at h
  unfold isBlank
  rw [h]; rfl

theorem specKeyToken_of_empty (fields : Fields) (k : String) (h : isEmptyValue (fields k)) :
    specKeyToken fields k = none := by
  unfold specKeyToken
  simp [isBlank_of_isEmptyValue _ h]

/-- C1: for every Field Set (whatever the rest of the state, the flag and the
clock are) the string returned by `buildDorkString` is the single-space join of
the tokens in one fixed precedence: the quoted `exactPhrase` token if emitted,
then the `-` token of `exclude` if emitted, then the parenthesised `OR` token if
emitted, then the tokens of the keys `site`, `inurl`, `allinurl`, `link`,
`related`, `ip`, `loc`, `intitle`, ..., `phonebook`, `group` in exactly that
order (the trimmed value alone for `range`, `key:value` for the others), and
the unprefixed `q` token last.  The Field Set
`exactPhrase:"x", exclude:"y", site:"z", q:"free text"` builds to
`"x" -y site:z free text`. -/
theorem buildDorkString_precedence (st : AppState) (saveToHistory : Bool) (time : Str) :
    (buildDorkString st saveToHistory time).1 =
        join [' '] ((specPhraseToken st.fields).toList ++ (specExcludeToken st.fields).toList
          ++ (specOrToken st.fields).toList
          ++ ["site", "inurl", "allinurl", "link", "related", "ip", "loc", "intitle",
              "allintitle", "intext", "allintext", "inanchor", "allinanchor", "inbody",
              "inposttitle", "inpostauthor", "filetype", "ext", "mime", "cache", "info",
              "inpublisher", "source", "before", "after", "daterange", "range", "define",
              "weather", "stocks", "map", "book", "phonebook", "group"].filterMap
              (fun k =>
                if isBlank (st.fields k) then none
                else if k = "q" ∨ k = "range" then some (trim ((st.fields k).getD []))
                else some (k.toList ++ ':' :: trim ((st.fields k).getD [])))
          ++ (if isBlank (st.fields "q") then none
              else some (trim ((st.fields "q").getD []))).toList)
      ∧ (buildDorkString
          { st with fields := fieldsOf [("exactPhrase", "x"), ("exclude", "y"), ("site", "z"),
              ("q", "free text")] } saveToHistory time).1
        = "\"x\" -y site:z free text".toList := by
  constructor
  · have hk : orderedKeys =
        ["site", "inurl", "allinurl", "link", "related", "ip", "loc", "intitle",
          "allintitle", "intext", "allintext", "inanchor", "allinanchor", "inbody",
          "inposttitle", "inpostauthor", "filetype", "ext", "mime", "cache", "info",
          "inpublisher", "source", "before", "after", "daterange", "range", "define",
          "weather", "stocks", "map", "book", "phonebook", "group"] ++ ["q"] := by
      decide
    have hf : (fun k =>
        if isBlank (st.fields k) then none
        else if k = "q" ∨ k = "range" then some (trim ((st.fields k).getD []))
        else some (k.toList ++ ':' :: trim ((st.fields k).getD [])))
        = specKeyToken st.fields := rfl
    have hqt : (if isBlank (st.fields "q") then none
        else some (trim ((st.fields "q").getD []))) = specQToken st.fields := rfl
    have hq : List.filterMap (specKeyToken st.fields) ["q"] = (specQToken st.fields).toList := by
      rw [← specKeyToken_q]
      cases h : specKeyToken st.fields "q" <;> simp [List.filterMap, h]
    rw [hf, hqt, buildDorkString_fst, buildQuery_eq_join, buildParts_eq]
    conv_lhs => rw [hk]
    rw [List.filterMap_append, hq]
    simp only [List.append_assoc]
  · rw [buildDorkString_fst]
    show buildQuery (fieldsOf [("exactPhrase", "x"), ("exclude", "y"), ("site", "z"),
      ("q", "free text")]) = _
    decide

/-- C2: for every Field Set whose `exactPhrase`, `exclude` and `OR` are empty,
`buildDorkString` returns the single-space join, in the fixed key order, of one
token per key whose value is neither empty nor whitespace-only: the trimmed
value alone for `q` and `range`, and `key:value` for every other key. -/
theorem buildDorkString_ordered_keys (st : AppState) (saveToHistory : Bool) (time : Str)
    (hp : isEmptyValue (st.fields "exactPhrase")) (he : isEmptyValue (st.fields "exclude"))
    (ho : isEmptyValue (st.fields "OR")) :
    (buildDorkString st saveToHistory time).1 =
      join [' ']
        (["site", "inurl", "allinurl", "link", "related", "ip", "loc", "intitle",
          "allintitle", "intext", "allintext", "inanchor", "allinanchor", "inbody",
          "inposttitle", "inpostauthor", "filetype", "ext", "mime", "cache", "info",
          "inpublisher", "source", "before", "after", "daterange", "range", "define",
          "weather", "stocks", "map", "book", "phonebook", "group", "q"].filterMap
          (fun k =>
            if isBlank (st.fields k) then none
            else if k = "q" ∨ k = "range" then some (trim ((st.fields k).getD []))
            else some (k.toList ++ ':' :: trim ((st.fields k).getD [])))) := by
  rw [buildDorkString_fst, buildQuery_eq_join, buildParts_eq]
  have h1 : specPhraseToken st.fields = none := by simp [specPhraseToken, hp]
  have h2 : specExcludeToken st.fields = none := by simp [specExcludeToken, he]
  have h3 : specOrToken st.fields = none := by
    unfold isEmptyValue at ho
    simp [specOrToken, ho, specOrParts_nil]
  rw [h1, h2, h3]
  rfl

/-- Witness of C2: `site:"example.com", filetype:"pdf"` builds to
`site:example.com filetype:pdf`. -/
theorem buildDorkString_ordered_keys_witness :
    (buildDorkString
        { fields := fieldsOf [("site", "example.com"), ("filetype", "pdf")]
          dork := [], history := [] } true "now".toList).1
      = "site:example.com filetype:pdf".toList :=
  (buildDorkString_ordered_keys
    { fields := fieldsOf [("site", "example.com"), ("filetype", "pdf")]
      dork := [], history := [] } true "now".toList
    (by decide) (by decide) (by decide)).trans (by decide)

theorem filterMap_keys_nil (fields : Fields) (keys : List String)
    (h : ∀ k ∈ keys, isBlank (fields k) = true) :
    keys.filterMap (specKeyToken fields) = [] := by
  rw [List.filterMap_eq_nil_iff]
  intro k hk
  simp [specKeyToken, h k hk]

/-- C3: for every Field Set in which every key other than `OR` is empty,
`buildDorkString` splits `OR` on commas (the pieces are comma-free and joining
them with commas gives the value back), trims each piece and drops the empty
ones; when a part remains it returns `(` + the parts joined by ` OR ` + `)`,
the parts in their original order, and when none remains it returns the empty
string. -/
theorem buildDorkString_or_only (st : AppState) (saveToHistory : Bool) (time : Str)
    (h : ∀ k, k ≠ "OR" → isEmptyValue (st.fields k)) :
    (join [','] (splitComma ((st.fields "OR").getD [])) = (st.fields "OR").getD []
      ∧ ∀ p ∈ splitComma ((st.fields "OR").getD []), ',' ∉ p)
    ∧ (buildDorkString st saveToHistory time).1 =
        if ((splitComma ((st.fields "OR").getD [])).map trim).filter (fun p => p ≠ []) = []
        then []
        else '(' :: join " OR ".toList
          (((splitComma ((st.fields "OR").getD [])).map trim).filter (fun p => p ≠ [])) ++ [')'] := by
  refine ⟨⟨join_splitComma _, splitComma_no_comma _⟩, ?_⟩
  rw [buildDorkString_fst, buildQuery_eq_join, buildParts_eq]
  have h1 : specPhraseToken st.fields = none := by
    simp [specPhraseToken, h "exactPhrase" (by decide)]
  have h2 : specExcludeToken st.fields = none := by
    simp [specExcludeToken, h "exclude" (by decide)]
  have h3 : orderedKeys.filterMap (specKeyToken st.fields) = [] := by
    apply filterMap_keys_nil
    intro k hk
    apply isBlank_of_isEmptyValue
    apply h
    intro hc
    subst hc
    revert hk
    decide
  rw [h1, h2, h3]
  show join [' '] ((specOrToken st.fields).toList ++ []) = _
  rw [List.append_nil]
  unfold specOrToken specOrParts
  split
  · rfl
  · exact join_singleton _ _

/-- Witness of C3: `OR:"login, admin , root"` builds to `(login OR admin OR root)`. -/
theorem buildDorkString_or_only_witness :
    (buildDorkString
        { fields := fieldsOf [("OR", "login, admin , root")], dork := [], history := [] }
        true "now".toList).1
      = "(login OR admin OR root)".toList :=
  (buildDorkString_or_only
    { fields := fieldsOf [("OR", "login, admin , root")], dork := [], history := [] }
    true "now".toList
    (by intro k hk; simp [fieldsOf, List.lookup, isEmptyValue]; split <;> simp_all)).2.trans
    (by decide)

theorem join_eq_nil (tokens : List Str) (h : ∀ t ∈ tokens, Tidy t) :
    join [' '] tokens = [] ↔ tokens = [] := by
  cases tokens with
  | nil => simp [join_nil]
  | cons x r =>
    have hx := (h x (by simp)).1
    simp [join_ne_nil [' '] x r hx]

theorem specOrToken_eq_none (fields : Fields) :
    specOrToken fields = none ↔
      ∀ p ∈ splitComma ((fields "OR").getD []), p.all isJsSpace = true := by
  unfold specOrToken specOrParts
  constructor
  · intro h
    split at h
    · rename_i hf
      rw [List.filter_eq_nil_iff] at hf
      intro p hp
      have := hf (trim p) (List.mem_map_of_mem _ hp)
      simp at this
      rw [List.all_eq_true]
      exact (trim_eq_nil p).1 this
    · simp at h
  · intro h
    have hf : List.filter (fun p => decide (p ≠ []))
        (List.map trim (splitComma ((fields "OR").getD []))) = [] := by
      rw [List.filter_eq_nil_iff]
      intro t ht
      rw [List.mem_map] at ht
      obtain ⟨p, hp, rfl⟩ := ht
      have := h p hp
      rw [List.all_eq_true] at this
      simp [(trim_eq_nil p).2 this]
    rw [if_pos hf]

theorem specKeyToken_eq_none (fields : Fields) (k : String) :
    specKeyToken fields k = none ↔ isBlank (fields k) = true := by
  unfold specKeyToken
  by_cases hb : isBlank (fields k) = true
  · simp [hb]
  · by_cases hq : k = "q" ∨ k = "range" <;> simp [hb, hq]

/-- C4 (counterexample): with `OR` set to a single comma and every other field
empty the build is the empty string, although `OR` is neither empty nor
whitespace-only. -/
theorem buildDorkString_empty_iff_blank_fails :
    ¬ ((buildDorkString
          { fields := fieldsWith [("OR", ",")], dork := [], history := [] }
          true "now".toList).1 = []
        ↔ ∀ k ∈ fieldKeys, isBlank (fieldsWith [("OR", ",")] k) = true) := by
  decide

/-- C4 (amended): for every Field Set in which `exactPhrase` and `exclude` are
each either empty or not whitespace-only, `buildDorkString` returns the empty
string if and only if `exactPhrase`, `exclude` and the value of every ordered
key are empty or whitespace-only and every comma-separated piece of `OR` is
empty or whitespace-only. -/
theorem buildDorkString_eq_nil_iff (st : AppState) (saveToHistory : Bool) (time : Str)
    (hp : isBlank (st.fields "exactPhrase") = true → isEmptyValue (st.fields "exactPhrase"))
    (he : isBlank (st.fields "exclude") = true → isEmptyValue (st.fields "exclude")) :
    (buildDorkString st saveToHistory time).1 = [] ↔
      (∀ k ∈ "exactPhrase" :: "exclude" :: orderedKeys, isBlank (st.fields k) = true)
        ∧ ∀ p ∈ splitComma ((st.fields "OR").getD []), p.all isJsSpace = true := by
  rw [buildDorkString_fst, buildQuery_eq_join, join_eq_nil _ (tidy_buildParts _), buildParts_eq]
  simp only [List.append_eq_nil, List.filterMap_eq_nil_iff, List.mem_cons, forall_eq_or_imp]
  rw [← specOrToken_eq_none]
  constructor
  · rintro ⟨⟨⟨h1, h2⟩, h3⟩, h4⟩
    refine ⟨⟨?_, ?_, ?_⟩, ?_⟩
    · apply isBlank_of_isEmptyValue
      unfold specPhraseToken at h1
      split at h1
      · assumption
      · simp at h1
    · apply isBlank_of_isEmptyValue
      unfold specExcludeToken at h2
      split at h2
      · assumption
      · simp at h2
    · intro k hk
      exact (specKeyToken_eq_none _ _).1 (h4 k hk)
    · cases h : specOrToken st.fields with
      | none => rfl
      | some t => rw [h] at h3; simp at h3
  · rintro ⟨⟨h1, h2, h4⟩, h3⟩
    refine ⟨⟨⟨?_, ?_⟩, ?_⟩, ?_⟩
    · simp [specPhraseToken, hp h1]
    · simp [specExcludeToken, he h2]
    · rw [h3]; rfl
    · intro k hk
      exact (specKeyToken_eq_none _ _).2 (h4 k hk)

/-- Witness of the amended C4: a Field Set with a blank `site` and an `OR` made
of blank pieces builds to the empty string. -/
theorem buildDorkString_eq_nil_iff_witness :
    (buildDorkString
        { fields := fieldsWith [("OR", " , "), ("site", " ")], dork := [], history := [] }
        true "now".toList).1 = [] :=
  (buildDorkString_eq_nil_iff
    { fields := fieldsWith [("OR", " , "), ("site", " ")], dork := [], history := [] }
    true "now".toList (by decide) (by decide)).2 ⟨by decide, by decide⟩

/-- The slip left out of the amended C4: a whitespace-only `exactPhrase` is
pushed as an empty pair of quotes, and a whitespace-only `exclude` as a lone
minus sign, so the build is not empty although every field is blank. -/
theorem buildDorkString_blank_phrase :
    (buildDorkString
        { fields := fieldsWith [("exactPhrase", " ")], dork := [], history := [] }
        true "now".toList).1 = "\"\"".toList
    ∧ (buildDorkString
        { fields := fieldsWith [("exclude", " ")], dork := [], history := [] }
        true "now".toList).1 = "-".toList := by
  decide

/-! ## The history side effect -/

theorem truthy_some (q : Str) : truthy (some q) = true ↔ q ≠ [] := by
  cases q <;> simp [truthy]

/-- C5: for every Field Set, prior history and flag, `buildDorkString` leaves
the history equal to the prior one with exactly the one entry
`(built string, time)` appended at the end when the built string is non-empty
and `saveToHistory` is true, and leaves it exactly as it was otherwise; the
prior history always remains a prefix of the new one, so existing entries are
neither changed nor reordered. -/
theorem buildDorkString_history (st : AppState) (saveToHistory : Bool) (time : Str) :
    (buildDorkString st saveToHistory time).2.history =
        (if (buildDorkString st saveToHistory time).1 ≠ [] ∧ saveToHistory = true then
          st.history ++ [{ text := (buildDorkString st saveToHistory time).1, time := time }]
        else st.history)
      ∧ st.history <+: (buildDorkString st saveToHistory time).2.history := by
  have key : (buildDorkString st saveToHistory time).2.history =
      (if (buildDorkString st saveToHistory time).1 ≠ [] ∧ saveToHistory = true then
        st.history ++ [{ text := (buildDorkString st saveToHistory time).1, time := time }]
      else st.history) := by
    rw [buildDorkString_fst]
    unfold buildDorkString
    by_cases hq : buildQuery st.fields = []
    · simp [hq, truthy]
    · cases saveToHistory
      · simp
      · simp [hq, (truthy_some _).2 hq]
  refine ⟨key, ?_⟩
  rw [key]
  split
  · exact List.prefix_append _ _
  · exact List.prefix_refl _

/-! ## The bookmark store -/

theorem orEmpty_eq (v : Option Str) : orEmpty v = v.getD [] := by
  unfold orEmpty
  cases v with
  | none => simp [truthy]
  | some s => cases s <;> simp [truthy]

/-- C6: `createFolder` answers 400 exactly when the given name is empty after
trimming, and then the stored collection is unchanged; otherwise it answers 201,
the stored collection becomes the new folder followed by all previous folders in
their previous order, and the returned folder is that new folder, with the
trimmed name and no bookmarks. -/
theorem createFolder_spec (data : Store) (name : Option Str) (now : Nat) :
    ((Backend.createFolder data name now).status = 400 ↔ trim (name.getD []) = [])
    ∧ (if trim (name.getD []) = [] then
        (Backend.createFolder data name now).store = data
          ∧ (Backend.createFolder data name now).body = none
      else
        (Backend.createFolder data name now).status = 201
          ∧ ∃ folder : Folder,
              (Backend.createFolder data name now).body = some folder
              ∧ (Backend.createFolder data name now).store = folder :: data
              ∧ folder.name = trim (name.getD [])
              ∧ folder.bookmarks = []
              ∧ folder.id = dateNowString now) := by
  unfold Backend.createFolder
  simp only [orEmpty_eq]
  by_cases h : trim (name.getD []) = []
  · simp [h, truthy]
  · have ht := (truthy_some _).2 h
    simp [h, ht]

/-- C8: `deleteFolder` answers 404 exactly when no stored folder has the given
id, and then the stored collection is unchanged; otherwise it answers 200 and
the stored collection is the previous one without the folders of that id, every
other folder kept, unchanged and in the same order. -/
theorem deleteFolder_spec (data : Store) (id : Str) :
    ((Backend.deleteFolder data id).status = 404 ↔ ∀ f ∈ data, f.id ≠ id)
    ∧ (if ∀ f ∈ data, f.id ≠ id then
        (Backend.deleteFolder data id).store = data
          ∧ (Backend.deleteFolder data id).body = none
      else
        (Backend.deleteFolder data id).status = 200
          ∧ (Backend.deleteFolder data id).body = some ()
          ∧ (Backend.deleteFolder data id).store = data.filter (fun f => f.id ≠ id)
          ∧ (Backend.deleteFolder data id).store.Sublist data
          ∧ ∀ f, f ∈ (Backend.deleteFolder data id).store ↔ f ∈ data ∧ f.id ≠ id) := by
  have hlen : (data.filter (fun f => f.id != id)).length = data.length ↔
      ∀ f ∈ data, f.id ≠ id := by
    rw [List.filter_length_eq_length]
    simp
  have hfil : data.filter (fun f => f.id != id) = data.filter (fun f => f.id ≠ id) := by
    congr 1; funext f; rw [Bool.eq_iff_iff]; simp
  by_cases h : ∀ f ∈ data, f.id ≠ id
  · have h1 := hlen.2 h
    have hd : Backend.deleteFolder data id = { status := 404, body := none, store := data } := by
      unfold Backend.deleteFolder
      simp only [h1, if_true]
    rw [hd, if_pos h]
    exact ⟨⟨fun _ => h, fun _ => rfl⟩, rfl, rfl⟩
  · have h1 : ¬ (data.filter (fun f => f.id != id)).length = data.length := fun hc => h (hlen.1 hc)
    have hd : Backend.deleteFolder data id =
        { status := 200, body := some (), store := data.filter (fun f => f.id != id) } := by
      unfold Backend.deleteFolder
      simp only [h1, if_false]
    rw [hd, if_neg h]
    refine ⟨⟨fun hc => by simp at hc, fun hc => absurd hc h⟩, rfl, rfl, hfil, ?_, ?_⟩
    · exact List.filter_sublist _
    · intro f; simp [List.mem_filter]

theorem unshiftInto_split (folderId : Str) (b : Bookmark) (data : List Folder)
    (h : ¬ ∀ f ∈ data, f.id ≠ folderId) :
    ∃ pre f post, data = pre ++ f :: post ∧ (∀ g ∈ pre, g.id ≠ folderId) ∧ f.id = folderId
      ∧ Backend.unshiftInto folderId b data
          = pre ++ { f with bookmarks := b :: f.bookmarks } :: post := by
  induction data with
  | nil => simp at h
  | cons f fs ih =>
    by_cases hf : f.id = folderId
    · exact ⟨[], f, fs, rfl, by simp, hf, by simp [Backend.unshiftInto, hf]⟩
    · have h1 : ¬ ∀ g ∈ fs, g.id ≠ folderId := by
        intro hc
        apply h
        intro g hg
        rcases List.mem_cons.1 hg with rfl | hg
        · exact hf
        · exact hc g hg
      obtain ⟨pre, g, post, hd, hpre, hg, hu⟩ := ih h1
      refine ⟨f :: pre, g, post, by rw [hd]; rfl, ?_, hg, ?_⟩
      · intro x hx
        rcases List.mem_cons.1 hx with rfl | hx
        · exact hf
        · exact hpre x hx
      · simp [Backend.unshiftInto, hf, hu]

/-- C7: `addBookmark` answers 400 when `folderId` or `url` is missing or empty,
otherwise 404 when no folder has id `folderId`, and in both cases leaves the
stored collection unchanged; otherwise it answers 201 and the first folder with
that id gets the new bookmark in front of its previous bookmarks, all folders
keep their place and every other folder is unchanged; the new bookmark carries
the given url, the title and note given or else the empty string, the id
derived from the clock and the given timestamp. -/
theorem addBookmark_spec (data : Store) (folderId url title note : Option Str)
    (now : Nat) (iso : Str) :
    if isEmptyValue folderId ∨ isEmptyValue url then
      (Backend.addBookmark data folderId url title note now iso).status = 400
        ∧ (Backend.addBookmark data folderId url title note now iso).store = data
        ∧ (Backend.addBookmark data folderId url title note now iso).body = none
    else if ∀ f ∈ data, f.id ≠ folderId.getD [] then
      (Backend.addBookmark data folderId url title note now iso).status = 404
        ∧ (Backend.addBookmark data folderId url title note now iso).store = data
        ∧ (Backend.addBookmark data folderId url title note now iso).body = none
    else
      (Backend.addBookmark data folderId url title note now iso).status = 201
        ∧ ∃ (pre : List Folder) (f : Folder) (post : List Folder) (b : Bookmark),
            data = pre ++ f :: post
            ∧ (∀ g ∈ pre, g.id ≠ folderId.getD [])
            ∧ f.id = folderId.getD []
            ∧ b = { id := dateNowString now, url := url.getD [], title := title.getD [],
                    note := note.getD [], addedAt := iso }
            ∧ (Backend.addBookmark data folderId url title note now iso).body = some b
            ∧ (Backend.addBookmark data folderId url title note now iso).store
                = pre ++ { f with bookmarks := b :: f.bookmarks } :: post := by
  by_cases h : isEmptyValue folderId ∨ isEmptyValue url
  · rw [if_pos h]
    have hc : (!truthy folderId || !truthy url) = true := by
      rcases h with h | h
      · have : truthy folderId = false := by
          cases ht : truthy folderId
          · rfl
          · exact absurd h ((truthy_iff _).1 ht)
        simp [this]
      · have : truthy url = false := by
          cases ht : truthy url
          · rfl
          · exact absurd h ((truthy_iff _).1 ht)
        simp [this]
    unfold Backend.addBookmark
    simp [hc]
  · rw [if_neg h]
    have h1 : truthy folderId = true := (truthy_iff _).2 (fun hc => h (Or.inl hc))
    have h2 : truthy url = true := (truthy_iff _).2 (fun hc => h (Or.inr hc))
    by_cases hn : ∀ f ∈ data, f.id ≠ folderId.getD []
    · rw [if_pos hn]
      have hf : data.find? (fun f => f.id == folderId.getD []) = none := by
        rw [List.find?_eq_none]
        intro f hf
        simpa using hn f hf
      unfold Backend.addBookmark
      simp [h1, h2, hf]
    · rw [if_neg hn]
      have hf : ∃ g, data.find? (fun f => f.id == folderId.getD []) = some g := by
        cases hfind : data.find? (fun f => f.id == folderId.getD []) with
        | some g => exact ⟨g, rfl⟩
        | none =>
          exfalso
          apply hn
          rw [List.find?_eq_none] at hfind
          intro f hf
          simpa using hfind f hf
      obtain ⟨g, hg⟩ := hf
      obtain ⟨pre, f, post, hd, hpre, hfid, hu⟩ :=
        unshiftInto_split (folderId.getD [])
          { id := dateNowString now, url := url.getD [], title := title.getD [],
            note := note.getD [], addedAt := iso } data hn
      unfold Backend.addBookmark
      simp only [h1, h2, hg, orEmpty_eq]
      exact ⟨rfl, pre, f, post, _, hd, hpre, hfid, rfl, rfl, hu⟩

theorem filterOut_eq (id : Str) (bs : List Bookmark) (removed : Bool) :
    Backend.filterOut id bs removed
      = (bs.filter (fun b => b.id ≠ id), removed || bs.any (fun b => b.id = id)) := by
  induction bs generalizing removed with
  | nil => simp [Backend.filterOut]
  | cons b bs ih =>
    by_cases hb : b.id = id
    · simp [Backend.filterOut, hb, ih]
    · simp [Backend.filterOut, hb, ih]

theorem removeFrom_eq (id : Str) (data : List Folder) (removed : Bool) :
    Backend.removeFrom id data removed
      = (data.map (fun f => { f with bookmarks := f.bookmarks.filter (fun b => b.id ≠ id) }),
         removed || data.any (fun f => f.bookmarks.any (fun b => b.id = id))) := by
  induction data generalizing removed with
  | nil => simp [Backend.removeFrom]
  | cons f fs ih =>
    simp [Backend.removeFrom, filterOut_eq, ih, Bool.or_assoc]

/-- C9: `deleteBookmark` answers 404 exactly when no bookmark in any folder has
the given id, and then the stored collection is unchanged; otherwise it answers
200 and every folder keeps its place, id and name and loses exactly its
bookmarks with that id, the others staying in the same order, so that
afterwards no folder contains a bookmark with that id. -/
theorem deleteBookmark_spec (data : Store) (id : Str) :
    ((Backend.deleteBookmark data id).status = 404
        ↔ ∀ f ∈ data, ∀ b ∈ f.bookmarks, b.id ≠ id)
    ∧ (if ∀ f ∈ data, ∀ b ∈ f.bookmarks, b.id ≠ id then
        (Backend.deleteBookmark data id).store = data
          ∧ (Backend.deleteBookmark data id).body = none
      else
        (Backend.deleteBookmark data id).status = 200
          ∧ (Backend.deleteBookmark data id).body = some ()
          ∧ (Backend.deleteBookmark data id).store
              = data.map (fun f =>
                  { id := f.id, name := f.name,
                    bookmarks := f.bookmarks.filter (fun b => b.id ≠ id) })
          ∧ (∀ f ∈ (Backend.deleteBookmark data id).store, ∀ b ∈ f.bookmarks, b.id ≠ id)
          ∧ (Backend.deleteBookmark data id).store.map Folder.id = data.map Folder.id
          ∧ (Backend.deleteBookmark data id).store.map Folder.name = data.map Folder.name) := by
  have hany : (data.any (fun f => f.bookmarks.any (fun b => b.id = id))) = false ↔
      ∀ f ∈ data, ∀ b ∈ f.bookmarks, b.id ≠ id := by
    simp
  by_cases h : ∀ f ∈ data, ∀ b ∈ f.bookmarks, b.id ≠ id
  · have hd : Backend.deleteBookmark data id = { status := 404, body := none, store := data } := by
      unfold Backend.deleteBookmark
      simp only [removeFrom_eq, hany.2 h]
      rfl
    rw [hd, if_pos h]
    exact ⟨⟨fun _ => h, fun _ => rfl⟩, rfl, rfl⟩
  · have ha : (data.any (fun f => f.bookmarks.any (fun b => b.id = id))) = true := by
      cases hc : data.any (fun f => f.bookmarks.any (fun b => b.id = id))
      · exact absurd (hany.1 hc) h
      · rfl
    have hd : Backend.deleteBookmark data id =
        { status := 200, body := some (),
          store := data.map (fun f =>
            { id := f.id, name := f.name,
              bookmarks := f.bookmarks.filter (fun b => b.id ≠ id) }) } := by
      unfold Backend.deleteBookmark
      simp only [removeFrom_eq, ha]
      rfl
    rw [hd, if_neg h]
    refine ⟨⟨fun hc => by simp at hc, fun hc => absurd hc h⟩, rfl, rfl, rfl, ?_, ?_, ?_⟩
    · intro f hf b hb
      simp only [List.mem_map] at hf
      obtain ⟨g, _, rfl⟩ := hf
      simp only [List.mem_filter] at hb
      simpa using hb.2
    · simp [List.map_map, Function.comp_def]
    · simp [List.map_map, Function.comp_def]

theorem assignFields_eq (title note : Option Str) (b : Bookmark) :
    Backend.assignFields title note b
      = { id := b.id, url := b.url, title := title.getD b.title, note := note.getD b.note,
          addedAt := b.addedAt } := by
  cases title <;> cases note <;> rfl

theorem updateIn_none (id : Str) (title note : Option Str) (bs : List Bookmark) :
    Backend.updateIn id title note bs = none ↔ ∀ b ∈ bs, b.id ≠ id := by
  induction bs with
  | nil => simp [Backend.updateIn]
  | cons b bs ih =>
    by_cases hb : b.id = id
    · simp [Backend.updateIn, hb]
    · cases hu : Backend.updateIn id title note bs with
      | none =>
        simp [Backend.updateIn, hb, hu]
        exact ih.1 hu
      | some r =>
        have : ¬ ∀ c ∈ bs, c.id ≠ id := fun hc => by
          rw [ih.2 hc] at hu; cases hu
        simp [Backend.updateIn, hb, hu]
        simpa using this

theorem updateIn_some (id : Str) (title note : Option Str) (bs bs1 : List Bookmark)
    (found : Bookmark) (h : Backend.updateIn id title note bs = some (bs1, found)) :
    ∃ bpre b bpost, bs = bpre ++ b :: bpost ∧ (∀ c ∈ bpre, c.id ≠ id) ∧ b.id = id
      ∧ found = Backend.assignFields title note b
      ∧ bs1 = bpre ++ found :: bpost := by
  induction bs generalizing bs1 with
  | nil => simp [Backend.updateIn] at h
  | cons b bs ih =>
    by_cases hb : b.id = id
    · simp [Backend.updateIn, hb] at h
      obtain ⟨h1, h2⟩ := h
      exact ⟨[], b, bs, rfl, by simp, hb, h2.symm, by rw [← h1, h2]; rfl⟩
    · cases hu : Backend.updateIn id title note bs with
      | none => simp [Backend.updateIn, hb, hu] at h
      | some r =>
        obtain ⟨r1, r2⟩ := r
        simp [Backend.updateIn, hb, hu] at h
        obtain ⟨h1, h2⟩ := h
        subst h2
        obtain ⟨bpre, c, bpost, hd, hpre, hc, hf, hs⟩ := ih r1 hu
        refine ⟨b :: bpre, c, bpost, by rw [hd]; rfl, ?_, hc, hf, by rw [← h1, hs]; rfl⟩
        intro x hx
        rcases List.mem_cons.1 hx with rfl | hx
        · exact hb
        · exact hpre x hx

theorem updateLoop_none (id : Str) (title note : Option Str) (data : List Folder) :
    Backend.updateLoop id title note data = none
      ↔ ∀ f ∈ data, ∀ b ∈ f.bookmarks, b.id ≠ id := by
  induction data with
  | nil => simp [Backend.updateLoop]
  | cons f fs ih =>
    cases hu : Backend.updateIn id title note f.bookmarks with
    | some r =>
      have : ¬ ∀ b ∈ f.bookmarks, b.id ≠ id := fun hc => by
        rw [(updateIn_none _ _ _ _).2 hc] at hu; cases hu
      simp only [Backend.updateLoop, hu]
      constructor
      · intro hc; cases hc
      · intro hc; exact absurd (hc f (by simp)) this
    | none =>
      have hf := (updateIn_none _ _ _ _).1 hu
      cases hl : Backend.updateLoop id title note fs with
      | none =>
        simp only [Backend.updateLoop, hu, hl, true_iff]
        intro g hg
        rcases List.mem_cons.1 hg with rfl | hg
        · exact hf
        · exact ih.1 hl g hg
      | some r =>
        have : ¬ ∀ g ∈ fs, ∀ b ∈ g.bookmarks, b.id ≠ id := fun hc => by
          rw [ih.2 hc] at hl; cases hl
        simp only [Backend.updateLoop, hu, hl]
        constructor
        · intro hc; cases hc
        · intro hc
          exact absurd (fun g hg => hc g (List.mem_cons_of_mem _ hg)) this

theorem updateLoop_some (id : Str) (title note : Option Str) (data data1 : List Folder)
    (found : Bookmark) (h : Backend.updateLoop id title note data = some (data1, found)) :
    ∃ pre f post bpre b bpost,
      data = pre ++ f :: post
      ∧ (∀ g ∈ pre, ∀ c ∈ g.bookmarks, c.id ≠ id)
      ∧ f.bookmarks = bpre ++ b :: bpost
      ∧ (∀ c ∈ bpre, c.id ≠ id)
      ∧ b.id = id
      ∧ found = Backend.assignFields title note b
      ∧ data1 = pre ++ { f with bookmarks := bpre ++ found :: bpost } :: post := by
  induction data generalizing data1 with
  | nil => simp [Backend.updateLoop] at h
  | cons f fs ih =>
    cases hu : Backend.updateIn id title note f.bookmarks with
    | some r =>
      obtain ⟨bs1, fd⟩ := r
      simp only [Backend.updateLoop, hu, Option.some.injEq, Prod.mk.injEq] at h
      obtain ⟨h1, h2⟩ := h
      subst h2
      obtain ⟨bpre, b, bpost, hd, hpre, hb, hf, hs⟩ := updateIn_some _ _ _ _ _ _ hu
      exact ⟨[], f, fs, bpre, b, bpost, rfl, by simp, hd, hpre, hb, hf, by rw [← h1, hs]; rfl⟩
    | none =>
      have hf := (updateIn_none _ _ _ _).1 hu
      cases hl : Backend.updateLoop id title note fs with
      | none => simp [Backend.updateLoop, hu, hl] at h
      | some r =>
        obtain ⟨fs1, fd⟩ := r
        simp only [Backend.updateLoop, hu, hl, Option.some.injEq, Prod.mk.injEq] at h
        obtain ⟨h1, h2⟩ := h
        subst h2
        obtain ⟨pre, g, post, bpre, b, bpost, hd, hpre, hg, hbpre, hb, hfd, hs⟩ := ih fs1 hl
        refine ⟨f :: pre, g, post, bpre, b, bpost, by rw [hd]; rfl, ?_, hg, hbpre, hb, hfd,
          by rw [← h1, hs]; rfl⟩
        intro x hx
        rcases List.mem_cons.1 hx with rfl | hx
        · exact hf
        · exact hpre x hx

/-- C10: `updateBookmark` answers 404, leaving the store unchanged, exactly when
no folder contains a bookmark with the given id; otherwise it answers 200 and
changes only the first bookmark with that id in folder-then-bookmark order, and
of that bookmark only the title when a title is provided and only the note when
a note is provided: its id, url and addedAt stay, and every other bookmark and
folder stays as it was, in the same place. -/
theorem updateBookmark_spec (data : Store) (id : Str) (title note : Option Str) :
    ((Backend.updateBookmark data id title note).status = 404
        ↔ ∀ f ∈ data, ∀ b ∈ f.bookmarks, b.id ≠ id)
    ∧ (if ∀ f ∈ data, ∀ b ∈ f.bookmarks, b.id ≠ id then
        (Backend.updateBookmark data id title note).store = data
          ∧ (Backend.updateBookmark data id title note).body = none
      else
        (Backend.updateBookmark data id title note).status = 200
          ∧ ∃ (pre : List Folder) (f : Folder) (post : List Folder)
              (bpre : List Bookmark) (b : Bookmark) (bpost : List Bookmark) (b1 : Bookmark),
              data = pre ++ f :: post
              ∧ (∀ g ∈ pre, ∀ c ∈ g.bookmarks, c.id ≠ id)
              ∧ f.bookmarks = bpre ++ b :: bpost
              ∧ (∀ c ∈ bpre, c.id ≠ id)
              ∧ b.id = id
              ∧ b1 = { id := b.id, url := b.url, title := title.getD b.title,
                       note := note.getD b.note, addedAt := b.addedAt }
              ∧ (Backend.updateBookmark data id title note).body = some b1
              ∧ (Backend.updateBookmark data id title note).store
                  = pre ++ { id := f.id, name := f.name, bookmarks := bpre ++ b1 :: bpost }
                      :: post) := by
  by_cases h : ∀ f ∈ data, ∀ b ∈ f.bookmarks, b.id ≠ id
  · have hd : Backend.updateBookmark data id title note
        = { status := 404, body := none, store := data } := by
      unfold Backend.updateBookmark
      rw [(updateLoop_none _ _ _ _).2 h]
    rw [hd, if_pos h]
    exact ⟨⟨fun _ => h, fun _ => rfl⟩, rfl, rfl⟩
  · cases hl : Backend.updateLoop id title note data with
    | none => exact absurd ((updateLoop_none _ _ _ _).1 hl) h
    | some r =>
      obtain ⟨data1, found⟩ := r
      have hd : Backend.updateBookmark data id title note
          = { status := 200, body := some found, store := data1 } := by
        unfold Backend.updateBookmark
        rw [hl]
      obtain ⟨pre, f, post, bpre, b, bpost, h1, h2, h3, h4, h5, h6, h7⟩ :=
        updateLoop_some _ _ _ _ _ _ hl
      rw [hd, if_neg h]
      refine ⟨⟨fun hc => by simp at hc, fun hc => absurd hc h⟩, rfl, ?_⟩
      exact ⟨pre, f, post, bpre, b, bpost, found, h1, h2, h3, h4, h5,
        by rw [h6, assignFields_eq], rfl, h7⟩

/-! ## Totality, missing keys and determinism of the build -/

theorem filterMap_congr_mem (keys : List String) (f g : String → Option Str)
    (h : ∀ k ∈ keys, f k = g k) : keys.filterMap f = keys.filterMap g := by
  induction keys with
  | nil => rfl
  | cons k ks ih =>
    rw [List.filterMap_cons, List.filterMap_cons, h k (by simp),
      ih (fun x hx => h x (List.mem_cons_of_mem _ hx))]

theorem buildParts_congr (f g : Fields)
    (h : ∀ k ∈ fieldKeys, (f k).getD [] = (g k).getD []) : buildParts f = buildParts g := by
  rw [buildParts_eq, buildParts_eq]
  have h1 : specPhraseToken f = specPhraseToken g := by
    unfold specPhraseToken isEmptyValue
    simp only [h "exactPhrase" (by decide)]
  have h2 : specExcludeToken f = specExcludeToken g := by
    unfold specExcludeToken isEmptyValue
    simp only [h "exclude" (by decide)]
  have h3 : specOrToken f = specOrToken g := by
    unfold specOrToken
    rw [h "OR" (by decide)]
  have h4 : orderedKeys.filterMap (specKeyToken f) = orderedKeys.filterMap (specKeyToken g) := by
    apply filterMap_congr_mem
    intro k hk
    have hk1 : k ∈ fieldKeys := by
      unfold fieldKeys
      simp [hk]
    unfold specKeyToken isBlank
    rw [h k hk1]
  rw [h1, h2, h3, h4]

theorem buildQuery_congr (f g : Fields)
    (h : ∀ k ∈ fieldKeys, (f k).getD [] = (g k).getD []) : buildQuery f = buildQuery g := by
  unfold buildQuery
  rw [buildParts_congr f g h]

theorem pushExactPhraseChecked_ok (fields : Fields) (parts : List Str) :
    pushExactPhraseChecked fields parts = .ok (pushExactPhrase fields parts) := by
  unfold pushExactPhraseChecked pushExactPhrase
  cases h : fields "exactPhrase" with
  | none => simp [truthy]
  | some s => split <;> simp [callTrim, valueOf]

theorem pushExcludeChecked_ok (fields : Fields) (parts : List Str) :
    pushExcludeChecked fields parts = .ok (pushExclude fields parts) := by
  unfold pushExcludeChecked pushExclude
  cases h : fields "exclude" with
  | none => simp [truthy]
  | some s => split <;> simp [callTrim, valueOf]

theorem pushOrChecked_ok (fields : Fields) (parts : List Str) :
    pushOrChecked fields parts = .ok (pushOr fields parts) := by
  unfold pushOrChecked pushOr
  cases h : fields "OR" with
  | none => simp [truthy]
  | some s =>
    by_cases ht : truthy (some s) = true
    · simp only [ht, if_true, callSplit, orParts, Option.getD_some]
      split <;> rfl
    · simp [ht]

theorem pushKeyChecked_eq (fields : Fields) (parts : List Str) (k : String) :
    pushKeyChecked fields parts k = pushKey fields parts k := by
  unfold pushKeyChecked pushKey
  cases h : fields k with
  | none => simp [truthy]
  | some s => simp [toJsString, valueOf]

theorem foldl_pushKeyChecked (fields : Fields) (keys : List String) (parts : List Str) :
    keys.foldl (pushKeyChecked fields) parts = keys.foldl (pushKey fields) parts := by
  have : pushKeyChecked fields = pushKey fields := by
    funext p k; exact pushKeyChecked_eq fields p k
  rw [this]

theorem buildDorkStringChecked_ok (st : AppState) (saveToHistory : Bool) (time : Str) :
    buildDorkStringChecked st saveToHistory time = .ok (buildDorkString st saveToHistory time) := by
  unfold buildDorkStringChecked
  simp only [pushExactPhraseChecked_ok, pushExcludeChecked_ok, pushOrChecked_ok,
    foldl_pushKeyChecked]
  unfold buildDorkString buildQuery buildParts
  simp only
  split <;> rfl

theorem buildDorkString_snd_history (st : AppState) (saveToHistory : Bool) (time : Str) :
    (buildDorkString st saveToHistory time).2.history =
      if truthy (some (buildQuery st.fields)) && saveToHistory then
        st.history ++ [{ text := buildQuery st.fields, time := time }]
      else st.history := by
  unfold buildDorkString
  simp only
  split <;> rfl

/-- C12: `buildDorkString` is total over every Field Set with text values: the
builder in which a method call on an absent member throws never throws and
returns what the plain builder returns; and a missing key is treated as empty:
for every Field Set and every set of keys, the build (returned string and
history afterwards) with those keys absent equals the build with those keys
present and set to the empty string. -/
theorem buildDorkString_total (st : AppState) (saveToHistory : Bool) (time : Str)
    (absent : String → Bool) :
    buildDorkStringChecked st saveToHistory time = .ok (buildDorkString st saveToHistory time)
    ∧ buildDorkStringChecked
          { st with fields := fun k => if absent k then none else st.fields k }
          saveToHistory time
        = .ok (buildDorkString
          { st with fields := fun k => if absent k then none else st.fields k }
          saveToHistory time)
    ∧ (buildDorkString
          { st with fields := fun k => if absent k then none else st.fields k }
          saveToHistory time).1
        = (buildDorkString
          { st with fields := fun k => if absent k then some [] else st.fields k }
          saveToHistory time).1
    ∧ (buildDorkString
          { st with fields := fun k => if absent k then none else st.fields k }
          saveToHistory time).2.history
        = (buildDorkString
          { st with fields := fun k => if absent k then some [] else st.fields k }
          saveToHistory time).2.history := by
  have hq : buildQuery (fun k => if absent k then none else st.fields k)
      = buildQuery (fun k => if absent k then some [] else st.fields k) := by
    apply buildQuery_congr
    intro k _
    cases absent k <;> simp
  refine ⟨buildDorkStringChecked_ok _ _ _, buildDorkStringChecked_ok _ _ _, ?_, ?_⟩
  · rw [buildDorkString_fst, buildDorkString_fst]
    exact hq
  · rw [buildDorkString_snd_history, buildDorkString_snd_history]
    show (if truthy (some (buildQuery (fun k => if absent k then none else st.fields k)))
        && saveToHistory then _ else _) = _
    rw [hq]

/-- C13: the string returned by `buildDorkString` is determined by the values of
the Field Set alone: two calls whose field values agree return the identical
string, whatever the `saveToHistory` flags, the histories, the cached dork
strings and the clock readings are. -/
theorem buildDorkString_deterministic (st1 st2 : AppState) (save1 save2 : Bool)
    (time1 time2 : Str) (h : ∀ k ∈ fieldKeys, st1.fields k = st2.fields k) :
    (buildDorkString st1 save1 time1).1 = (buildDorkString st2 save2 time2).1 := by
  rw [buildDorkString_fst, buildDorkString_fst]
  apply buildQuery_congr
  intro k hk
  rw [h k hk]

/-- Witness of C13: the same Field Set built with different flag, history, cached
dork string and clock. -/
theorem buildDorkString_deterministic_witness :
    (buildDorkString
        { fields := fieldsWith [("site", "example.com"), ("q", "login")]
          dork := [], history := [] } true "10:00".toList).1
      = (buildDorkString
        { fields := fieldsWith [("site", "example.com"), ("q", "login")]
          dork := "old".toList
          history := [{ text := "old".toList, time := "09:00".toList }] }
        false "11:00".toList).1 :=
  buildDorkString_deterministic _ _ true false "10:00".toList "11:00".toList (by decide)

/-- C15: for every Field Set every token pushed by `buildDorkString` is non-empty
and has no white space at its start or end, so the final `trim` changes nothing:
the returned string is the untrimmed single-space join of the tokens and itself
has no white space at its start or end. -/
theorem buildDorkString_tokens_tidy (st : AppState) (saveToHistory : Bool) (time : Str) :
    (∀ t ∈ buildParts st.fields,
        t ≠ [] ∧ (∀ c, t.head? = some c → isJsSpace c = false)
          ∧ (∀ c, t.getLast? = some c → isJsSpace c = false))
    ∧ trim (join [' '] (buildParts st.fields)) = join [' '] (buildParts st.fields)
    ∧ (buildDorkString st saveToHistory time).1 = join [' '] (buildParts st.fields)
    ∧ (∀ c, (buildDorkString st saveToHistory time).1.head? = some c → isJsSpace c = false)
    ∧ (∀ c, (buildDorkString st saveToHistory time).1.getLast? = some c
        → isJsSpace c = false) := by
  have hj := tidy_join _ (tidy_buildParts st.fields)
  have hr : (buildDorkString st saveToHistory time).1 = join [' '] (buildParts st.fields) := by
    rw [buildDorkString_fst, buildQuery_eq_join]
  refine ⟨fun t ht => tidy_buildParts st.fields t ht, trim_of_noEdgeSpace _ hj, hr, ?_, ?_⟩
  · rw [hr]; exact hj.1
  · rw [hr]; exact hj.2

/-! ## Deleting a history row -/

theorem filterIndexFrom_out (i : Int) (es : List HistoryEntry) (k : Nat)
    (h : i < k ∨ (k : Int) + es.length ≤ i) : filterIndexFrom i es k = es := by
  induction es generalizing k with
  | nil => rfl
  | cons e es ih =>
    have hne : (k : Int) ≠ i := by
      rcases h with h | h
      · omega
      · simp at h; omega
    have hrec : i < ((k + 1 : Nat) : Int) ∨ ((k + 1 : Nat) : Int) + es.length ≤ i := by
      rcases h with h | h
      · left; push_cast; omega
      · right; simp at h; push_cast; omega
    simp only [filterIndexFrom, hne, ne_eq, not_false_eq_true, if_true, ih (k + 1) hrec]

theorem filterIndexFrom_in (es : List HistoryEntry) (k n : Nat) (h : n < es.length) :
    filterIndexFrom ((k : Int) + n) es k = es.eraseIdx n := by
  induction es generalizing k n with
  | nil => simp at h
  | cons e es ih =>
    cases n with
    | zero =>
      have : filterIndexFrom (k : Int) es (k + 1) = es :=
        filterIndexFrom_out _ es (k + 1) (Or.inl (by push_cast; omega))
      simp only [filterIndexFrom, List.eraseIdx]
      simp [this]
    | succ n =>
      have hne : (k : Int) ≠ (k : Int) + ((n + 1 : Nat) : Int) := by push_cast; omega
      have hrec := ih (k + 1) n (by simpa using h)
      have he : ((k : Int) + ((n + 1 : Nat) : Int)) = (((k + 1 : Nat) : Int) + (n : Int)) := by
        push_cast; omega
      simp only [filterIndexFrom, hne, ne_eq, not_false_eq_true, if_true, List.eraseIdx]
      rw [he, hrec]

theorem eraseIdx_append_cons (a : List HistoryEntry) (x : HistoryEntry)
    (b : List HistoryEntry) : (a ++ x :: b).eraseIdx a.length = a ++ b := by
  induction a with
  | nil => rfl
  | cons y a ih => simp [List.eraseIdx, ih]

theorem split_at_index (l : List HistoryEntry) (idx : Nat) (h : idx < l.length) :
    ∃ a x b, l = a ++ x :: b ∧ a.length = idx ∧ l[idx]? = some x := by
  induction l generalizing idx with
  | nil => simp at h
  | cons y l ih =>
    cases idx with
    | zero => exact ⟨[], y, l, rfl, rfl, by simp⟩
    | succ n =>
      obtain ⟨a, x, b, h1, h2, h3⟩ := ih n (by simpa using h)
      exact ⟨y :: a, x, b, by rw [h1]; rfl, by simp [h2], by simpa using h3⟩

theorem reverse_eraseIdx_reverse (l : List HistoryEntry) (idx : Nat) (h : idx < l.length) :
    (l.reverse.eraseIdx idx).reverse = l.eraseIdx (l.length - 1 - idx) := by
  obtain ⟨a, x, b, h1, h2, _⟩ := split_at_index l.reverse idx (by simpa using h)
  have hl : l = b.reverse ++ x :: a.reverse := by
    have := congrArg List.reverse h1
    simpa using this
  have hlen : l.length - 1 - idx = b.reverse.length := by
    rw [hl]
    simp
    omega
  rw [hlen, h1, ← h2, eraseIdx_append_cons]
  conv_rhs => rw [hl, eraseIdx_append_cons]
  simp

/-- C14: for every history and every displayed position `idx` below its length,
the row at `idx` of the newest-first panel shows the `idx`-th entry of the
reversed history and its Delete button passes `length - 1 - idx`; with that
argument `deleteHistoryItem` removes exactly that row: the new history, read
newest-first, is the old panel with row `idx` erased, so it has one entry less
and all other entries keep their content and relative order.  For an index
outside `0 .. length - 1` `deleteHistoryItem` leaves the history unchanged. -/
theorem deleteHistoryItem_row (st : AppState) :
    (∀ idx, idx < st.history.length →
      ∃ e, st.history.reverse[idx]? = some e
        ∧ (historyRows st.history)[idx]? = some (e, (st.history.length : Int) - 1 - (idx : Int))
        ∧ (deleteHistoryItem st ((st.history.length : Int) - 1 - (idx : Int))).history.reverse
            = st.history.reverse.eraseIdx idx
        ∧ (deleteHistoryItem st ((st.history.length : Int) - 1 - (idx : Int))).history
            = st.history.eraseIdx (st.history.length - 1 - idx)
        ∧ (deleteHistoryItem st ((st.history.length : Int) - 1 - (idx : Int))).history.length
            = st.history.length - 1)
    ∧ ∀ j : Int, (j < 0 ∨ (st.history.length : Int) ≤ j) →
        (deleteHistoryItem st j).history = st.history := by
  constructor
  · intro idx h
    obtain ⟨a, e, b, h1, h2, h3⟩ := split_at_index st.history.reverse idx (by simpa using h)
    have hi : ((st.history.length : Int) - 1 - (idx : Int))
        = (((0 : Nat) : Int) + ((st.history.length - 1 - idx : Nat) : Int)) := by
      push_cast
      omega
    have hd : (deleteHistoryItem st ((st.history.length : Int) - 1 - (idx : Int))).history
        = st.history.eraseIdx (st.history.length - 1 - idx) := by
      unfold deleteHistoryItem
      simp only
      rw [hi]
      exact filterIndexFrom_in st.history 0 _ (by omega)
    refine ⟨e, h3, ?_, ?_, hd, ?_⟩
    · unfold historyRows
      rw [List.getElem?_map, List.getElem?_enum, h3]
      rfl
    · rw [hd, ← reverse_eraseIdx_reverse _ _ h, List.reverse_reverse]
    · rw [hd, List.length_eraseIdx]
      have : st.history.length - 1 - idx < st.history.length := by omega
      simp [this]
  · intro j hj
    unfold deleteHistoryItem
    simp only
    apply filterIndexFrom_out
    rcases hj with hj | hj
    · left; simpa using hj
    · right; simpa using hj

/-- Example for C14: in a history of three entries the Delete button of the
middle row removes the middle entry, and the index `3` removes nothing. -/
theorem deleteHistoryItem_row_witness :
    (deleteHistoryItem
        { fields := initialFields, dork := []
          history := [{ text := "a".toList, time := [] }, { text := "b".toList, time := [] },
            { text := "c".toList, time := [] }] } ((3 : Int) - 1 - 1)).history
      = [{ text := "a".toList, time := [] }, { text := "c".toList, time := [] }]
    ∧ (deleteHistoryItem
        { fields := initialFields, dork := []
          history := [{ text := "a".toList, time := [] }, { text := "b".toList, time := [] },
            { text := "c".toList, time := [] }] } 3).history
      = [{ text := "a".toList, time := [] }, { text := "b".toList, time := [] },
          { text := "c".toList, time := [] }] := by
  have h := deleteHistoryItem_row
    { fields := initialFields, dork := []
      history := [{ text := "a".toList, time := [] }, { text := "b".toList, time := [] },
        { text := "c".toList, time := [] }] }
  obtain ⟨_, _, _, _, h4, _⟩ := h.1 1 (by decide)
  exact ⟨h4, h.2 3 (Or.inr (by decide))⟩

/-! ## Ids derived from the clock -/

theorem digitChar_value (d : Nat) (h : d < 10) : (Nat.digitChar d).toNat - 48 = d := by
  interval_cases d <;> rfl

theorem digitsValue_toDigitsCore (fuel n : Nat) (ds : Str) (h : n < fuel) :
    digitsValue 0 (Nat.toDigitsCore 10 fuel n ds) = digitsValue n ds := by
  induction fuel generalizing n ds with
  | zero => omega
  | succ fuel ih =>
    unfold Nat.toDigitsCore
    simp only
    have hd : (Nat.digitChar (n % 10)).toNat - 48 = n % 10 :=
      digitChar_value _ (Nat.mod_lt _ (by decide))
    split
    · rename_i h0
      have hn : n % 10 = n := by omega
      rw [hn] at hd
      simp only [digitsValue, List.foldl_cons, hn, hd]
      simp
    · rename_i h0
      rw [ih (n / 10) _ (by omega)]
      simp only [digitsValue, List.foldl_cons, hd]
      congr 1
      omega

theorem digitsValue_dateNowString (n : Nat) : digitsValue 0 (dateNowString n) = n := by
  unfold dateNowString Nat.toDigits
  rw [digitsValue_toDigitsCore _ _ _ (by omega)]
  rfl

theorem dateNowString_injective (a b : Nat) (h : dateNowString a = dateNowString b) : a = b := by
  have := congrArg (digitsValue 0) h
  rwa [digitsValue_dateNowString, digitsValue_dateNowString] at this

/-! ## What each handler does to the ids -/

theorem bookmarkIds_cons (f : Folder) (fs : List Folder) :
    bookmarkIds (f :: fs) = f.bookmarks.map Bookmark.id ++ bookmarkIds fs := by
  simp [bookmarkIds]

theorem bookmarkIds_append (a b : List Folder) :
    bookmarkIds (a ++ b) = bookmarkIds a ++ bookmarkIds b := by
  simp [bookmarkIds]

theorem bookmarkIds_sublist (a b : List Folder) (h : a.Sublist b) :
    (bookmarkIds a).Sublist (bookmarkIds b) := by
  induction h with
  | slnil => exact List.Sublist.refl _
  | cons f _ ih =>
    rw [bookmarkIds_cons]
    exact ih.trans (List.sublist_append_right _ _)
  | cons₂ f _ ih =>
    rw [bookmarkIds_cons, bookmarkIds_cons]
    exact List.Sublist.append (List.Sublist.refl _) ih

theorem folderIds_unshiftInto (folderId : Str) (b : Bookmark) (data : List Folder) :
    folderIds (Backend.unshiftInto folderId b data) = folderIds data := by
  induction data with
  | nil => rfl
  | cons f fs ih =>
    unfold Backend.unshiftInto
    split
    · simp [folderIds]
    · simp only [folderIds, List.map_cons] at ih ⊢
      rw [ih]

theorem bookmarkIds_unshiftInto (folderId : Str) (b : Bookmark) (data : List Folder)
    (h : ¬ ∀ f ∈ data, f.id ≠ folderId) :
    List.Perm (bookmarkIds (Backend.unshiftInto folderId b data)) (b.id :: bookmarkIds data) := by
  obtain ⟨pre, f, post, hd, _, _, hu⟩ := unshiftInto_split folderId b data h
  rw [hu, hd, bookmarkIds_append, bookmarkIds_append, bookmarkIds_cons, bookmarkIds_cons]
  simp only [List.map_cons, List.cons_append]
  exact List.perm_middle

theorem assignFields_id (title note : Option Str) (b : Bookmark) :
    (Backend.assignFields title note b).id = b.id := by
  rw [assignFields_eq]

theorem ids_updateLoop (id : Str) (title note : Option Str) (data data1 : List Folder)
    (found : Bookmark) (h : Backend.updateLoop id title note data = some (data1, found)) :
    folderIds data1 = folderIds data ∧ bookmarkIds data1 = bookmarkIds data := by
  obtain ⟨pre, f, post, bpre, b, bpost, h1, _, h3, _, _, h6, h7⟩ :=
    updateLoop_some _ _ _ _ _ _ h
  have hid : found.id = b.id := by rw [h6, assignFields_id]
  constructor
  · rw [h7, h1]
    simp [folderIds]
  · rw [h7, h1, bookmarkIds_append, bookmarkIds_append, bookmarkIds_cons, bookmarkIds_cons, h3]
    simp [hid]

theorem ids_removeFrom (id : Str) (data : List Folder) :
    folderIds (data.map (fun f =>
        ({ f with bookmarks := f.bookmarks.filter (fun b => b.id ≠ id) } : Folder)))
      = folderIds data
    ∧ (bookmarkIds (data.map (fun f =>
        ({ f with bookmarks := f.bookmarks.filter (fun b => b.id ≠ id) } : Folder)))).Sublist
        (bookmarkIds data) := by
  constructor
  · simp [folderIds, List.map_map, Function.comp_def]
  · induction data with
    | nil => exact List.Sublist.refl _
    | cons f fs ih =>
      rw [List.map_cons, bookmarkIds_cons, bookmarkIds_cons]
      exact List.Sublist.append (List.Sublist.map _ (List.filter_sublist _)) ih

theorem createFolder_cases (data : Store) (name : Option Str) (now : Nat) :
    ((Backend.createFolder data name now).status = 201
        ∧ ∃ nm, (Backend.createFolder data name now).store
            = { id := dateNowString now, name := nm, bookmarks := [] } :: data)
    ∨ ((Backend.createFolder data name now).status ≠ 201
        ∧ (Backend.createFolder data name now).store = data) := by
  unfold Backend.createFolder
  simp only
  split
  · right; exact ⟨by simp, rfl⟩
  · left; exact ⟨rfl, _, rfl⟩

theorem addBookmark_cases (data : Store) (folderId url title note : Option Str)
    (now : Nat) (iso : Str) :
    ((Backend.addBookmark data folderId url title note now iso).status = 201
        ∧ (¬ ∀ f ∈ data, f.id ≠ folderId.getD [])
        ∧ ∃ b : Bookmark, b.id = dateNowString now
            ∧ (Backend.addBookmark data folderId url title note now iso).body = some b
            ∧ (Backend.addBookmark data folderId url title note now iso).store
                = Backend.unshiftInto (folderId.getD []) b data)
    ∨ ((Backend.addBookmark data folderId url title note now iso).status ≠ 201
        ∧ (Backend.addBookmark data folderId url title note now iso).body = none
        ∧ (Backend.addBookmark data folderId url title note now iso).store = data) := by
  unfold Backend.addBookmark
  split
  · right; exact ⟨by simp, rfl, rfl⟩
  · cases hf : data.find? (fun f => f.id == folderId.getD []) with
    | none => right; exact ⟨by simp, rfl, rfl⟩
    | some g =>
      left
      refine ⟨rfl, ?_, _, rfl, rfl, rfl⟩
      intro hc
      have hg := List.find?_some hf
      have hm := List.mem_of_find?_eq_some hf
      exact hc g hm (by simpa using hg)

/-! ## Ids stay distinct along every sequence of requests -/

theorem idsFrom_mono (used used1 : List Nat) (data : Store) (h : ∀ t ∈ used, t ∈ used1)
    (hinv : IdsFrom used data) : IdsFrom used1 data := by
  obtain ⟨h1, h2, h3, h4⟩ := hinv
  refine ⟨h1, h2, ?_, ?_⟩
  · intro i hi
    obtain ⟨t, ht, he⟩ := h3 i hi
    exact ⟨t, h t ht, he⟩
  · intro i hi
    obtain ⟨t, ht, he⟩ := h4 i hi
    exact ⟨t, h t ht, he⟩

theorem idsFrom_sublist (used : List Nat) (data data1 : Store) (hinv : IdsFrom used data)
    (hf : (folderIds data1).Sublist (folderIds data))
    (hb : (bookmarkIds data1).Sublist (bookmarkIds data)) : IdsFrom used data1 := by
  obtain ⟨h1, h2, h3, h4⟩ := hinv
  exact ⟨h1.sublist hf, h2.sublist hb, fun i hi => h3 i (hf.subset hi),
    fun i hi => h4 i (hb.subset hi)⟩

theorem fresh_id (used : List Nat) (now : Nat) (ids : List Str) (hn : now ∉ used)
    (h : ∀ i ∈ ids, ∃ t ∈ used, i = dateNowString t) : dateNowString now ∉ ids := by
  intro hc
  obtain ⟨t, ht, he⟩ := h _ hc
  have := dateNowString_injective _ _ he
  subst this
  exact hn ht

theorem idsFrom_handle (used : List Nat) (data : Store) (r : Request)
    (hinv : IdsFrom used data) (hnd : (used ++ (Backend.clockRead data r).toList).Nodup) :
    IdsFrom (used ++ (Backend.clockRead data r).toList) (Backend.handle data r) := by
  have hsub : ∀ t ∈ used, t ∈ used ++ (Backend.clockRead data r).toList :=
    fun t ht => List.mem_append_left _ ht
  cases r with
  | createFolder name now =>
    rcases createFolder_cases data name now with ⟨hs, nm, hst⟩ | ⟨hs, hst⟩
    · have hc : Backend.clockRead data (.createFolder name now) = some now := by
        simp [Backend.clockRead, hs]
      rw [hc] at hnd ⊢
      have hn : now ∉ used := by
        intro hin
        have := (List.nodup_append.1 hnd).2.2
        exact this hin (by simp)
      obtain ⟨h1, h2, h3, h4⟩ := hinv
      show IdsFrom _ (Backend.createFolder data name now).store
      rw [hst]
      refine ⟨?_, ?_, ?_, ?_⟩
      · show (dateNowString now :: folderIds data).Nodup
        exact List.nodup_cons.2 ⟨fresh_id used now _ hn h3, h1⟩
      · rw [bookmarkIds_cons]
        simpa using h2
      · intro i hi
        rcases List.mem_cons.1 hi with rfl | hi
        · exact ⟨now, by simp, rfl⟩
        · obtain ⟨t, ht, he⟩ := h3 i hi
          exact ⟨t, List.mem_append_left _ ht, he⟩
      · intro i hi
        rw [bookmarkIds_cons] at hi
        obtain ⟨t, ht, he⟩ := h4 i (by simpa using hi)
        exact ⟨t, List.mem_append_left _ ht, he⟩
    · show IdsFrom _ (Backend.createFolder data name now).store
      rw [hst]
      exact idsFrom_mono _ _ _ hsub hinv
  | deleteFolder id =>
    apply idsFrom_mono _ _ _ hsub
    show IdsFrom used (Backend.deleteFolder data id).store
    unfold Backend.deleteFolder
    simp only
    split
    · exact hinv
    · exact idsFrom_sublist used data _ hinv (List.Sublist.map _ (List.filter_sublist _))
        (bookmarkIds_sublist _ _ (List.filter_sublist _))
  | addBookmark folderId url title note now iso =>
    rcases addBookmark_cases data folderId url title note now iso with
      ⟨hs, hex, b, hbid, _, hst⟩ | ⟨hs, _, hst⟩
    · have hc : Backend.clockRead data (.addBookmark folderId url title note now iso)
          = some now := by
        simp [Backend.clockRead, hs]
      rw [hc] at hnd ⊢
      have hn : now ∉ used := by
        intro hin
        have := (List.nodup_append.1 hnd).2.2
        exact this hin (by simp)
      obtain ⟨h1, h2, h3, h4⟩ := hinv
      have hperm := bookmarkIds_unshiftInto (folderId.getD []) b data hex
      show IdsFrom _ (Backend.addBookmark data folderId url title note now iso).store
      rw [hst]
      refine ⟨?_, ?_, ?_, ?_⟩
      · rw [folderIds_unshiftInto]; exact h1
      · rw [hperm.nodup_iff, hbid]
        exact List.nodup_cons.2 ⟨fresh_id used now _ hn h4, h2⟩
      · intro i hi
        rw [folderIds_unshiftInto] at hi
        obtain ⟨t, ht, he⟩ := h3 i hi
        exact ⟨t, List.mem_append_left _ ht, he⟩
      · intro i hi
        rw [hperm.mem_iff] at hi
        rcases List.mem_cons.1 hi with rfl | hi
        · exact ⟨now, by simp, hbid⟩
        · obtain ⟨t, ht, he⟩ := h4 i hi
          exact ⟨t, List.mem_append_left _ ht, he⟩
    · show IdsFrom _ (Backend.addBookmark data folderId url title note now iso).store
      rw [hst]
      exact idsFrom_mono _ _ _ hsub hinv
  | updateBookmark id title note =>
    apply idsFrom_mono _ _ _ hsub
    show IdsFrom used (Backend.updateBookmark data id title note).store
    unfold Backend.updateBookmark
    cases hl : Backend.updateLoop id title note data with
    | none => exact hinv
    | some res =>
      obtain ⟨data1, found⟩ := res
      obtain ⟨hf, hb⟩ := ids_updateLoop _ _ _ _ _ _ hl
      exact idsFrom_sublist used data _ hinv (by rw [hf]) (by rw [hb])
  | deleteBookmark id =>
    apply idsFrom_mono _ _ _ hsub
    show IdsFrom used (Backend.deleteBookmark data id).store
    unfold Backend.deleteBookmark
    simp only [removeFrom_eq]
    split
    · exact hinv
    · obtain ⟨hf, hb⟩ := ids_removeFrom id data
      exact idsFrom_sublist used data _ hinv (by rw [hf]) hb

theorem clockReads_append (data : Store) (pre post : List Request) :
    Backend.clockReads data (pre ++ post)
      = Backend.clockReads data pre ++ Backend.clockReads (Backend.run data pre) post := by
  induction pre generalizing data with
  | nil => rfl
  | cons r rs ih =>
    show (Backend.clockRead data r).toList ++ Backend.clockReads (Backend.handle data r) (rs ++ post)
      = ((Backend.clockRead data r).toList ++ Backend.clockReads (Backend.handle data r) rs)
        ++ Backend.clockReads (Backend.run (Backend.handle data r) rs) post
    rw [ih, List.append_assoc]

theorem idsFrom_run (used : List Nat) (data : Store) (reqs : List Request)
    (hinv : IdsFrom used data) (hnd : (used ++ Backend.clockReads data reqs).Nodup) :
    IdsFrom (used ++ Backend.clockReads data reqs) (Backend.run data reqs) := by
  induction reqs generalizing used data with
  | nil => simpa [Backend.clockReads, Backend.run] using hinv
  | cons r rs ih =>
    simp only [Backend.clockReads, Backend.run] at hnd ⊢
    rw [← List.append_assoc] at hnd ⊢
    have hpre : (used ++ (Backend.clockRead data r).toList).Nodup :=
      hnd.sublist (List.sublist_append_left _ _)
    exact ih _ _ (idsFrom_handle used data r hinv hpre) hnd

theorem idsFrom_empty : IdsFrom [] [] := by
  refine ⟨List.nodup_nil, List.nodup_nil, ?_, ?_⟩ <;> intro i hi <;> cases hi

/-- C11: in every store reached from the empty store by any sequence of
`createFolder`, `deleteFolder`, `addBookmark`, `updateBookmark` and
`deleteBookmark` requests in which no two creations read the same clock value,
the folder ids are pairwise distinct and the bookmark ids are pairwise distinct;
in particular, at every point of the sequence the id of a newly added bookmark
differs from the id of every bookmark stored just before. -/
theorem reachable_ids_distinct (reqs : List Request)
    (h : (Backend.clockReads [] reqs).Nodup) :
    (folderIds (Backend.run [] reqs)).Nodup
    ∧ (bookmarkIds (Backend.run [] reqs)).Nodup
    ∧ ∀ (pre post : List Request) (folderId url title note : Option Str) (now : Nat)
        (iso : Str) (b : Bookmark),
        reqs = pre ++ Request.addBookmark folderId url title note now iso :: post →
        (Backend.addBookmark (Backend.run [] pre) folderId url title note now iso).body = some b →
        b.id ∉ bookmarkIds (Backend.run [] pre) := by
  have hall := idsFrom_run [] [] reqs idsFrom_empty (by simpa using h)
  refine ⟨hall.1, hall.2.1, ?_⟩
  intro pre post folderId url title note now iso b hreqs hbody
  rw [hreqs, clockReads_append] at h
  have hprefix : (Backend.clockReads [] pre).Nodup := h.sublist (List.sublist_append_left _ _)
  have hinv := idsFrom_run [] [] pre idsFrom_empty (by simpa using hprefix)
  rw [List.nil_append] at hinv
  rcases addBookmark_cases (Backend.run [] pre) folderId url title note now iso with
    ⟨hs, _, b1, hbid, hb1, _⟩ | ⟨_, hnone, _⟩
  · rw [hb1] at hbody
    cases hbody
    have hc : Backend.clockRead (Backend.run [] pre)
        (.addBookmark folderId url title note now iso) = some now := by
      simp [Backend.clockRead, hs]
    have hn : now ∉ Backend.clockReads [] pre := by
      intro hin
      have hdis := (List.nodup_append.1 h).2.2
      apply hdis hin
      show now ∈ (Backend.clockRead (Backend.run [] pre)
        (.addBookmark folderId url title note now iso)).toList ++ _
      rw [hc]
      simp
    rw [hbid]
    exact fresh_id _ now _ hn hinv.2.2.2
  · rw [hnone] at hbody
    cases hbody

/-- Witness of C11: the sample sequence reads four different clock values, and
the store it leaves has distinct folder ids and distinct bookmark ids. -/
theorem reachable_ids_distinct_witness :
    (Backend.clockReads [] sampleRequests).Nodup
    ∧ (folderIds (Backend.run [] sampleRequests)).Nodup
    ∧ (bookmarkIds (Backend.run [] sampleRequests)).Nodup
    ∧ Backend.clockReads [] sampleRequests = [1000, 1001, 1002, 1003]
    ∧ bookmarkIds (Backend.run [] sampleRequests) = ["1002".toList] :=
  ⟨by decide, (reachable_ids_distinct sampleRequests (by decide)).1,
    (reachable_ids_distinct sampleRequests (by decide)).2.1, by decide, by decide⟩

end DorkTool
